import Mathlib

/-!
# Verification of the Monkey interpreter core (unvalley/monkey)

A shallow embedding, in Lean 4, of the lexer (`src/lib/lexer/mod.rs`,
`src/lib/lexer/token.rs`), the Pratt parser (`src/lib/parser/mod.rs`,
`src/lib/parser/ast.rs`), and the tree-walking evaluator
(`src/lib/eval/mod.rs`, `src/lib/eval/object.rs`,
`src/lib/eval/environment.rs`) of the Monkey interpreter, together with
theorems settling the specification claims about it.

Modelling conventions:
* Rust `String`s (the lexer input, identifier names, string literals) are
  modelled as `List Nat` of their UTF-8 bytes; the Rust lexer operates on
  the byte buffer `input.as_bytes()`, so this is the faithful data.
* Rust functions that can `panic!` or `unwrap` are modelled with an
  `Option`/dedicated `panic` result: `none`/`.panic` means the Rust
  program aborts.
* Every recursive loop carries an explicit fuel argument so that all
  definitions are structurally recursive and kernel-computable.  For the
  lexer loops the fuel is the remaining input length plus a constant, an
  exact upper bound on the number of iterations (each iteration advances
  `read_position`); for the parser and the evaluator the fuel bounds the
  recursion depth, and exhaustion is a distinguished `timeout`/`none`
  result that is never a behaviour of the Rust program.
* `Rc<RefCell<Environment>>` cells are modelled by indices into an
  explicit store (`Store := List Environment`); pushing a cell models
  `Rc::new(RefCell::new(..))`, and cloning an `Rc` is sharing the index.
* `i64` arithmetic wraps modulo `2^64` (the release-profile behaviour;
  the spec, section 4.3, leaves overflow implementation-defined).
  Division by zero, and `i64::MIN / -1`, panic in every profile and are
  modelled as `panic`.
-/

set_option linter.unusedVariables false

namespace Monkey

/-! ## Bytes and character classes (lexer/mod.rs is_letter / is_digit / whitespace) -/

/-- Identifier and string payloads: UTF-8 byte lists, as in Rust `String`. -/
abbrev Name := List Nat

/-- Byte list of an ASCII Lean string literal (used to write concrete inputs). -/
def strBytes (s : String) : List Nat := s.data.map Char.toNat

/-- `Lexer::is_letter`: `a..=z | A..=Z | _`. -/
def isLetterB (c : Nat) : Bool :=
  if (97 ≤ c ∧ c ≤ 122) ∨ (65 ≤ c ∧ c ≤ 90) ∨ c = 95 then true else false

/-- `Lexer::is_digit`: `0..=9`. -/
def isDigitB (c : Nat) : Bool := if 48 ≤ c ∧ c ≤ 57 then true else false

/-- `skip_whitespace` classes: space, tab, newline, carriage return. -/
def isWsB (c : Nat) : Bool := if c = 32 ∨ c = 9 ∨ c = 10 ∨ c = 13 then true else false

/-! ## Tokens (lexer/token.rs) -/

/-- `Token` from `src/lib/lexer/token.rs` (including the never-produced
`BoolLitral` variant, kept for fidelity). -/
inductive Token where
  | Illegal
  | EOF
  | Identifier (name : Name)
  | StringLiteral (s : Name)
  | IntLiteral (n : Int)
  | BoolLitral (b : Bool)
  | Assign
  | Plus
  | Minus
  | Bang
  | Asterisk
  | Slash
  | LT
  | GT
  | Comma
  | Colon
  | SemiColon
  | LParen
  | RParen
  | LBrace
  | RBrace
  | Function
  | Let
  | Return
  | True
  | False
  | If
  | Else
  | Eq
  | NotEq
deriving DecidableEq, Repr

/-- `Precedence` from `src/lib/parser/ast.rs` (the `Prefix` variant is named
`prefixOp` here because Lean reserves the word). -/
inductive Precedence where
  | lowest
  | equals
  | lessGreater
  | sum
  | product
  | prefixOp
  | call
deriving DecidableEq, Repr

/-- Numeric view of `Precedence`, realising the derived `PartialOrd`
(declaration order). -/
def Precedence.toNat : Precedence → Nat
  | .lowest => 0
  | .equals => 1
  | .lessGreater => 2
  | .sum => 3
  | .product => 4
  | .prefixOp => 5
  | .call => 6

/-- `a < b` on `Precedence` (derived `PartialOrd` compares declaration order). -/
def precLt (a b : Precedence) : Bool := a.toNat < b.toNat

/-- `Token::precedence` from `src/lib/lexer/token.rs`. -/
def Token.precedence : Token → Precedence
  | .Eq => .equals
  | .NotEq => .equals
  | .LT => .lessGreater
  | .GT => .lessGreater
  | .Plus => .sum
  | .Minus => .sum
  | .Asterisk => .product
  | .Slash => .product
  | .LParen => .call
  | _ => .lowest

/-! ## Lexer (lexer/mod.rs) -/

/-- `Lexer` state: the byte buffer, current index, next index, and the
current byte (`0` is the end sentinel). -/
structure Lexer where
  input : List Nat
  position : Nat
  readPosition : Nat
  ch : Nat
deriving DecidableEq, Repr

/-- `Lexer::read_char`. -/
def readCharL (l : Lexer) : Lexer :=
  { input := l.input
    position := l.readPosition
    readPosition := l.readPosition + 1
    ch := if l.input.length ≤ l.readPosition then 0 else l.input.getD l.readPosition 0 }

/-- `Lexer::new`: prime `ch` with one `read_char`. -/
def Lexer.new (input : List Nat) : Lexer :=
  readCharL { input := input, position := 0, readPosition := 0, ch := 0 }

/-- `Lexer::peek_char`. -/
def peekCharL (l : Lexer) : Nat :=
  if l.input.length ≤ l.readPosition then 0 else l.input.getD l.readPosition 0

/-- The `while` loop of `skip_whitespace`.  The fuel is an upper bound on the
iteration count: each iteration moves `position` to `read_position` and
the loop stops once `position` passes the end of input (then `ch = 0`). -/
def skipWsAux : Nat → Lexer → Lexer
  | 0, l => l
  | n + 1, l => if isWsB l.ch then skipWsAux n (readCharL l) else l

/-- `Lexer::skip_whitespace`. -/
def skipWhitespaceL (l : Lexer) : Lexer :=
  skipWsAux (l.input.length + 1 - l.position) l

/-- The digit loop of `read_int` / letter loop of `read_identifier`:
advance while `pred ch` holds. -/
def readRunAux (pred : Nat → Bool) : Nat → Lexer → Lexer
  | 0, l => l
  | n + 1, l => if pred l.ch then readRunAux pred n (readCharL l) else l

/-- Decimal value of a digit byte run. -/
def digitsVal (ds : List Nat) : Nat := ds.foldl (fun a c => 10 * a + (c - 48)) 0

/-- `i64::MAX`. -/
def i64Max : Nat := 9223372036854775807

/-- `str::parse::<i64>` on the scanned slice (a possibly empty run of digit
bytes): `none` models `Err` (so the `unwrap` in `read_int` panics);
a nonempty all-digit run parses iff its value fits in `i64`. -/
def parseI64 (ds : List Nat) : Option Int :=
  if ds = [] then none
  else if digitsVal ds ≤ i64Max then some (Int.ofNat (digitsVal ds)) else none

/-- `Lexer::read_int`: scan the maximal digit run and `parse::<i64>().unwrap()`.
`none` models the panic of the `unwrap` on overflow. -/
def readIntL (l : Lexer) : Option (Int × Lexer) :=
  let p0 := l.position
  let l' := readRunAux isDigitB (l.input.length + 1 - l.position) l
  match parseI64 ((l'.input.drop p0).take (l'.position - p0)) with
  | some n => some (n, l')
  | none => none

/-- `Lexer::read_identifier`: scan the maximal letter run. -/
def readIdentifierL (l : Lexer) : Name × Lexer :=
  let p0 := l.position
  let l' := readRunAux isLetterB (l.input.length + 1 - l.position) l
  ((l'.input.drop p0).take (l'.position - p0), l')

/-- The `loop` of `read_string`: `read_char` then break on `"` (34) or `0`. -/
def readStringAux : Nat → Lexer → Lexer
  | 0, l => l
  | n + 1, l =>
    let l' := readCharL l
    if l'.ch = 34 ∨ l'.ch = 0 then l' else readStringAux n l'

/-- `Lexer::read_string`. -/
def readStringL (l : Lexer) : Token × Lexer :=
  let p0 := l.position + 1
  let l' := readStringAux (l.input.length + 2 - l.position) l
  (.StringLiteral ((l'.input.drop p0).take (l'.position - p0)), l')

/-- Keyword table of `next_token`'s identifier arm. -/
def keywordOrIdent (nm : Name) : Token :=
  if nm = strBytes "fn" then .Function
  else if nm = strBytes "let" then .Let
  else if nm = strBytes "if" then .If
  else if nm = strBytes "else" then .Else
  else if nm = strBytes "return" then .Return
  else if nm = strBytes "true" then .True
  else if nm = strBytes "false" then .False
  else .Identifier nm

/-- The byte dispatch of `next_token`, after `skip_whitespace` has run.
Branches follow the Rust `match` on the current byte; the
identifier/integer arms return early, every other arm performs the
trailing `read_char`.  `none` models a panic (the `unwrap` inside
`read_int`). -/
def nextTokenCore (l1 : Lexer) : Option (Token × Lexer) :=
  if l1.ch = 61 then
    if peekCharL l1 = 61 then some (.Eq, readCharL (readCharL l1))
    else some (.Assign, readCharL l1)
  else if l1.ch = 43 then some (.Plus, readCharL l1)
  else if l1.ch = 45 then some (.Minus, readCharL l1)
  else if l1.ch = 33 then
    (if peekCharL l1 = 61 then some (.NotEq, readCharL (readCharL l1))
     else some (.Bang, readCharL l1))
  else if l1.ch = 47 then some (.Slash, readCharL l1)
  else if l1.ch = 42 then some (.Asterisk, readCharL l1)
  else if l1.ch = 60 then some (.LT, readCharL l1)
  else if l1.ch = 62 then some (.GT, readCharL l1)
  else if l1.ch = 59 then some (.SemiColon, readCharL l1)
  else if l1.ch = 44 then some (.Comma, readCharL l1)
  else if l1.ch = 40 then some (.LParen, readCharL l1)
  else if l1.ch = 41 then some (.RParen, readCharL l1)
  else if l1.ch = 123 then some (.LBrace, readCharL l1)
  else if l1.ch = 125 then some (.RBrace, readCharL l1)
  else if l1.ch = 34 then
    some ((readStringL l1).1, readCharL (readStringL l1).2)
  else if l1.ch = 0 then some (.EOF, readCharL l1)
  else if isLetterB l1.ch then
    some (keywordOrIdent (readIdentifierL l1).1, (readIdentifierL l1).2)
  else if isDigitB l1.ch then
    match readIntL l1 with
    | some (n, l2) => some (.IntLiteral n, l2)
    | none => none
  else some (.Illegal, readCharL l1)

/-- `Lexer::next_token`: skip whitespace, then dispatch. -/
def nextToken (l : Lexer) : Option (Token × Lexer) :=
  nextTokenCore (skipWhitespaceL l)

/-- The `i`-th token produced by repeatedly calling `next_token`;
`none` once any call panics. -/
def nthToken (l : Lexer) : Nat → Option Token
  | 0 => (nextToken l).map Prod.fst
  | n + 1 =>
    match nextToken l with
    | some (_, l') => nthToken l' n
    | none => none

/-- Collect the tokens before the first `EOF` (exclusive); `none` on a
lexer panic or (never with the fuel used below) fuel exhaustion. -/
def lexAllAux : Nat → Lexer → Option (List Token)
  | 0, _ => none
  | n + 1, l =>
    match nextToken l with
    | some (.EOF, _) => some []
    | some (t, l') => (lexAllAux n l').map (t :: ·)
    | none => none

/-- Tokenize a whole input.  Every produced non-`EOF` token consumes at
least one input byte, so `length + 2` calls always reach `EOF`. -/
def lexAll (input : List Nat) : Option (List Token) :=
  lexAllAux (input.length + 2) (Lexer.new input)

/-! ## AST (parser/ast.rs)

`Prefix` and `Infix` are named `PrefixOp`/`InfixOp` (Lean reserves the
source names); their constructors keep the Rust variant names. -/

/-- `ast::Prefix`. -/
inductive PrefixOp where
  | bang
  | minus
deriving DecidableEq, Repr

/-- `ast::Infix`. -/
inductive InfixOp where
  | eq
  | notEq
  | lt
  | gt
  | plus
  | minus
  | slash
  | asterisk
deriving DecidableEq, Repr

mutual
/-- `ast::Expression`.  Constructors `prefixE`/`infixE`/`ifE` stand for the
source's `Prefix`/`Infix`/`If` variants. -/
inductive Expression where
  | identifier (name : Name)
  | string (s : Name)
  | integer (n : Int)
  | prefixE (operator : PrefixOp) (right : Expression)
  | infixE (operator : InfixOp) (left : Expression) (right : Expression)
  | boolean (b : Bool)
  | ifE (condition : Expression) (consequence : Statement) (alternative : Option Statement)
  | function (parameters : List Expression) (body : Statement)
  | call (function : Expression) (arguments : List Expression)

/-- `ast::Statement`. -/
inductive Statement where
  | letS (identifier : Expression) (value : Expression)
  | returnS (value : Expression)
  | expression (value : Expression)
  | block (statements : List Statement)
end

/-! ## Display and Debug rendering (parser/ast.rs)

`impl fmt::Display for Expression` renders expressions; but
`impl fmt::Display for Statement` formats the `Let`/`Return`/`Expression`
arms with `{:?}` — the derived `Debug` representation — so both formats
are embedded.  All rendering produces byte lists. -/

/-- Most-significant-first decimal digit bytes of a positive number; the
fuel is any upper bound on the digit count (`n` itself suffices). -/
def natDigitsAux : Nat → Nat → List Nat
  | 0, _ => []
  | fuel + 1, n => if n = 0 then [] else natDigitsAux fuel (n / 10) ++ [48 + n % 10]

/-- Decimal digits of a natural number (standard `Display` of an unsigned
decimal; `0` renders as `"0"`). -/
def natDigits (n : Nat) : List Nat :=
  if n = 0 then [48] else natDigitsAux (n + 1) n

/-- A hexadecimal digit byte (lowercase, as `escape_debug` prints). -/
def hexDigitByte (d : Nat) : Nat := if d < 10 then 48 + d else 87 + d

/-- Most-significant-first lowercase hex digit bytes. -/
def natHexAux : Nat → Nat → List Nat
  | 0, _ => []
  | fuel + 1, n => if n = 0 then [] else natHexAux fuel (n / 16) ++ [hexDigitByte (n % 16)]

/-- Lowercase hex digits of a natural number (`0` renders as `"0"`). -/
def natHexDigits (n : Nat) : List Nat :=
  if n = 0 then [48] else natHexAux (n + 1) n

/-- `i64`'s `Display`/`Debug`: optional minus sign then decimal digits. -/
def intToBytes (n : Int) : List Nat :=
  if n < 0 then 45 :: natDigits n.natAbs else natDigits n.natAbs

/-- `Display`/`Debug` for `bool`. -/
def boolToBytes (b : Bool) : List Nat :=
  if b then strBytes "true" else strBytes "false"

/-- `char::escape_debug` for one byte, as used by `Debug` for `String`
payloads: escape `"` and `\`, the common control characters, other
C0 controls and DEL as `\u{..}`.  Bytes ≥ 0x80 are emitted raw (a
printable Unicode scalar's UTF-8 bytes pass through `escape_debug`
unchanged; unprintable scalars, which no claim exercises, would be
escaped). -/
def escapeDebugByte (c : Nat) : List Nat :=
  if c = 34 then [92, 34]
  else if c = 92 then [92, 92]
  else if c = 10 then [92, 110]
  else if c = 13 then [92, 114]
  else if c = 9 then [92, 116]
  else if c < 32 ∨ c = 127 then
    92 :: 117 :: 123 :: natHexDigits c ++ [125]
  else [c]

/-- `Debug` for a `String` payload: quoted, with `escape_debug` contents. -/
def debugStr (s : Name) : List Nat :=
  34 :: (s.flatMap escapeDebugByte) ++ [34]

/-- Derived `Debug` for `ast::Prefix`. -/
def debugPrefixOp : PrefixOp → List Nat
  | .bang => strBytes "Bang"
  | .minus => strBytes "Minus"

/-- Derived `Debug` for `ast::Infix`. -/
def debugInfixOp : InfixOp → List Nat
  | .eq => strBytes "Eq"
  | .notEq => strBytes "NotEq"
  | .lt => strBytes "LT"
  | .gt => strBytes "GT"
  | .plus => strBytes "Plus"
  | .minus => strBytes "Minus"
  | .slash => strBytes "Slash"
  | .asterisk => strBytes "Asterisk"

/-- `Display` for `ast::Prefix` (`!` / `-`). -/
def displayPrefixOp : PrefixOp → List Nat
  | .bang => [33]
  | .minus => [45]

/-- `Display` for `ast::Infix`. -/
def displayInfixOp : InfixOp → List Nat
  | .eq => strBytes "=="
  | .notEq => strBytes "!="
  | .lt => [60]
  | .gt => [62]
  | .plus => [43]
  | .minus => [45]
  | .slash => [47]
  | .asterisk => [42]

/-- `", "`-joined concatenation, as the derived `Debug` prints `Vec` items. -/
def joinCommaSpace : List (List Nat) → List Nat
  | [] => []
  | [x] => x
  | x :: xs => x ++ [44, 32] ++ joinCommaSpace xs

/-- `","`-joined concatenation, as the `Display` impls join parameters and
arguments. -/
def joinComma : List (List Nat) → List Nat
  | [] => []
  | [x] => x
  | x :: xs => x ++ [44] ++ joinComma xs

mutual
/-- Derived `Debug` for `ast::Expression` (the standard `{:?}` format:
tuple variants as `Name(..)`, struct variants as
`Name { field: .., .. }`, `Vec` as `[..]`, `Option` as `None`/`Some(..)`,
`Box` transparent). -/
def debugExpr : Expression → List Nat
  | .identifier nm => strBytes "Identifier(" ++ debugStr nm ++ [41]
  | .string s => strBytes "String(" ++ debugStr s ++ [41]
  | .integer n => strBytes "Integer(" ++ intToBytes n ++ [41]
  | .prefixE op r =>
    strBytes "Prefix \x7b operator: " ++ debugPrefixOp op ++
      strBytes ", right: " ++ debugExpr r ++ strBytes " \x7d"
  | .infixE op l r =>
    strBytes "Infix \x7b operator: " ++ debugInfixOp op ++
      strBytes ", left: " ++ debugExpr l ++
      strBytes ", right: " ++ debugExpr r ++ strBytes " \x7d"
  | .boolean b => strBytes "Boolean(" ++ boolToBytes b ++ [41]
  | .ifE c cons alt =>
    strBytes "If \x7b condition: " ++ debugExpr c ++
      strBytes ", consequence: " ++ debugStmt cons ++
      strBytes ", alternative: " ++
      (match alt with
       | none => strBytes "None"
       | some a => strBytes "Some(" ++ debugStmt a ++ [41]) ++ strBytes " \x7d"
  | .function ps body =>
    strBytes "Function \x7b parameters: [" ++ joinCommaSpace (debugExprList ps) ++
      strBytes "], body: " ++ debugStmt body ++ strBytes " \x7d"
  | .call f args =>
    strBytes "Call \x7b function: " ++ debugExpr f ++
      strBytes ", arguments: [" ++ joinCommaSpace (debugExprList args) ++
      strBytes "] \x7d"

/-- Derived `Debug` for a list of expressions (item renderings, joined by
the caller). -/
def debugExprList : List Expression → List (List Nat)
  | [] => []
  | e :: es => debugExpr e :: debugExprList es

/-- Derived `Debug` for `ast::Statement`. -/
def debugStmt : Statement → List Nat
  | .letS id v =>
    strBytes "Let \x7b identifier: " ++ debugExpr id ++
      strBytes ", value: " ++ debugExpr v ++ strBytes " \x7d"
  | .returnS v => strBytes "Return(" ++ debugExpr v ++ [41]
  | .expression v => strBytes "Expression(" ++ debugExpr v ++ [41]
  | .block ss => strBytes "Block([" ++ joinCommaSpace (debugStmtList ss) ++ strBytes "])"

/-- Derived `Debug` for a list of statements. -/
def debugStmtList : List Statement → List (List Nat)
  | [] => []
  | s :: ss => debugStmt s :: debugStmtList ss
end

mutual
/-- `impl fmt::Display for Expression` (parser/ast.rs:103-162). -/
def displayExpr : Expression → List Nat
  | .identifier nm => nm
  | .string s => s
  | .integer n => intToBytes n
  | .prefixE op r => 40 :: displayPrefixOp op ++ displayExpr r ++ [41]
  | .infixE op l r => 40 :: displayExpr l ++ displayInfixOp op ++ displayExpr r ++ [41]
  | .boolean b => boolToBytes b
  | .ifE c cons alt =>
    strBytes "if(" ++ displayExpr c ++ strBytes ")\x7b" ++ displayStmt cons ++
      (match alt with
       | none => [125]
       | some a => strBytes "\x7delse\x7b" ++ displayStmt a ++ [125])
  | .function ps body =>
    strBytes "fn(" ++ joinComma (paramNames ps) ++ strBytes ")\x7b" ++
      displayStmt body ++ [125]
  | .call f args =>
    displayExpr f ++ [40] ++ joinComma (displayExprList args) ++ [41]

/-- The parameter renderer of the `Function` display arm: it matches each
parameter against `Identifier` and is `unreachable!()` otherwise.  The
unreachable (panicking) arm is rendered as the empty string here; it can
only be hit by hand-built ASTs, never by parser output. -/
def paramNames : List Expression → List (List Nat)
  | [] => []
  | .identifier nm :: ps => nm :: paramNames ps
  | _ :: ps => [] :: paramNames ps

/-- `Display` of each argument of a `Call`. -/
def displayExprList : List Expression → List (List Nat)
  | [] => []
  | e :: es => displayExpr e :: displayExprList es

/-- `impl fmt::Display for Statement` (parser/ast.rs:50-66).  Note the
source formats the `Let`/`Return`/`Expression` payloads with `{:?}`
(Debug), not `{}`. -/
def displayStmt : Statement → List Nat
  | .letS id v =>
    strBytes "let " ++ debugExpr id ++ strBytes " = " ++ debugExpr v ++ [59]
  | .returnS v => strBytes "return " ++ debugExpr v ++ [59]
  | .expression v => debugExpr v ++ [59]
  | .block ss => displayStmtList ss

/-- Concatenated display of a block's statements. -/
def displayStmtList : List Statement → List Nat
  | [] => []
  | s :: ss => displayStmt s ++ displayStmtList ss
end

/-! ## Errors (error/mod.rs) and value type tags (eval/object.rs) -/

/-- `object::ObjectType`. -/
inductive ObjectType where
  | integer
  | bool
  | null
deriving DecidableEq, Repr

/-- `MonkeyError` from `src/lib/error/mod.rs`. -/
inductive MonkeyError where
  | unexpectedToken (expected actual : Token)
  | invalidToken (t : Token)
  | invalidIdentifier
  | identifierNotFound
  | invalidInteger
  | unknown
  | unknownOperator (operator : InfixOp) (left right : ObjectType)
  | typeMismatch (operator : InfixOp) (left right : ObjectType)
  | incorrectNumberOfArguments (expected actual : Nat)
deriving DecidableEq, Repr

/-! ## Parser (parser/mod.rs)

The Rust parser pulls tokens from the lexer on demand, but the lexer's
behaviour does not depend on the parser, so the stream is pre-materialised
(`lexAll`) and the parser runs over the token list; reading past its end
yields `EOF`, exactly as the real lexer keeps returning `EOF` at the end
of input.  The parser functions are genuinely mutually recursive (an
expression can contain statements and vice versa), so they are built as a
fuel-indexed tower `parseAll : Nat → ParseFns`: layer `n + 1` makes every
recursive call through layer `n`.  The fuel bounds recursion depth only;
`none` means fuel exhaustion (never a Rust behaviour), while parse errors
are the `Except.error` values the Rust code returns. -/

/-- The parser's cursor: `current_token`, `peek_token`, and the rest of
the stream. -/
structure PState where
  cur : Token
  peek : Token
  rest : List Token
deriving DecidableEq, Repr

/-- `Parser::next_token`: shift `peek` into `cur` and pull one token
(`EOF` once the stream is exhausted). -/
def PState.advance (st : PState) : PState :=
  { cur := st.peek, peek := st.rest.headD .EOF, rest := st.rest.tail }

/-- `Parser::new` reads two tokens; starting from a token list this leaves
the cursor on the first two tokens. -/
def stFor (ts : List Token) : PState :=
  { cur := ts.getD 0 .EOF, peek := (ts.drop 1).getD 0 .EOF, rest := ts.drop 2 }

/-- Result of one parser function: `none` is fuel exhaustion; otherwise
the Rust `Result` of a value and the updated cursor. -/
abbrev ParseRes (α : Type) := Option (Except MonkeyError (α × PState))

/-- `Parser::expect_peek` (pure, consumes no fuel). -/
def expectPeek (t : Token) (st : PState) : Except MonkeyError PState :=
  if st.peek = t then .ok st.advance
  else .error (.unexpectedToken t st.peek)

/-- One layer of every parser function. -/
structure ParseFns where
  stmtF : PState → ParseRes Statement
  letF : PState → ParseRes Statement
  returnF : PState → ParseRes Statement
  exprStmtF : PState → ParseRes Statement
  exprF : Precedence → PState → ParseRes Expression
  loopF : Precedence → Expression → PState → ParseRes Expression
  prefixF : PState → ParseRes Expression
  infixStepF : Expression → PState → ParseRes Expression
  groupF : PState → ParseRes Expression
  ifF : PState → ParseRes Expression
  fnF : PState → ParseRes Expression
  fnParamsF : PState → ParseRes (List Expression)
  fnParamsLoopF : List Expression → PState → ParseRes (List Expression)
  callF : Expression → PState → ParseRes Expression
  callArgsF : PState → ParseRes (List Expression)
  callArgsLoopF : List Expression → PState → ParseRes (List Expression)
  blockF : PState → ParseRes Statement
  blockLoopF : List Statement → PState → ParseRes (List Statement)
  progF : List Statement → PState → ParseRes (List Statement)

/-- The all-timeout bottom layer. -/
def parseBot : ParseFns where
  stmtF := fun _ => none
  letF := fun _ => none
  returnF := fun _ => none
  exprStmtF := fun _ => none
  exprF := fun _ _ => none
  loopF := fun _ _ _ => none
  prefixF := fun _ => none
  infixStepF := fun _ _ => none
  groupF := fun _ => none
  ifF := fun _ => none
  fnF := fun _ => none
  fnParamsF := fun _ => none
  fnParamsLoopF := fun _ _ => none
  callF := fun _ _ => none
  callArgsF := fun _ => none
  callArgsLoopF := fun _ _ => none
  blockF := fun _ => none
  blockLoopF := fun _ _ => none
  progF := fun _ _ => none

/-- Build layer `n + 1` from layer `n`: each field transcribes the
corresponding `Parser::parse_*` function, with `p` for the previous
layer. -/
def parseStep (p : ParseFns) : ParseFns where
  stmtF := fun st =>
    match st.cur with
    | .Let => p.letF st
    | .Return => p.returnF st
    | _ => p.exprStmtF st
  letF := fun st =>
    let st1 := st.advance
    match st1.cur with
    | .Identifier nm =>
      match expectPeek .Assign st1 with
      | .error e => some (.error e)
      | .ok st2 =>
        let st3 := st2.advance
        match p.exprF .lowest st3 with
        | none => none
        | some (.error e) => some (.error e)
        | some (.ok (value, st4)) =>
          let st5 := if st4.cur = Token.SemiColon then st4 else st4.advance
          some (.ok (.letS (.identifier nm) value, st5))
    | t => some (.error (.unexpectedToken (.Identifier []) t))
  returnF := fun st =>
    let st1 := st.advance
    match p.exprF .lowest st1 with
    | none => none
    | some (.error e) => some (.error e)
    | some (.ok (value, st2)) =>
      match expectPeek .SemiColon st2 with
      | .error e => some (.error e)
      | .ok st3 => some (.ok (.returnS value, st3))
  exprStmtF := fun st =>
    match p.exprF .lowest st with
    | none => none
    | some (.error e) => some (.error e)
    | some (.ok (e, st1)) =>
      let st2 := if st1.peek = Token.SemiColon then st1.advance else st1
      some (.ok (.expression e, st2))
  exprF := fun prec st =>
    match st.cur with
    | .Identifier nm => p.loopF prec (.identifier nm) st
    | .StringLiteral s => p.loopF prec (.string s) st
    | .IntLiteral n => p.loopF prec (.integer n) st
    | .True => p.loopF prec (.boolean true) st
    | .False => p.loopF prec (.boolean false) st
    | .Bang =>
      match p.prefixF st with
      | none => none
      | some (.error e) => some (.error e)
      | some (.ok (e, st1)) => p.loopF prec e st1
    | .Minus =>
      match p.prefixF st with
      | none => none
      | some (.error e) => some (.error e)
      | some (.ok (e, st1)) => p.loopF prec e st1
    | .LParen =>
      match p.groupF st with
      | none => none
      | some (.error e) => some (.error e)
      | some (.ok (e, st1)) => p.loopF prec e st1
    | .If =>
      match p.ifF st with
      | none => none
      | some (.error e) => some (.error e)
      | some (.ok (e, st1)) => p.loopF prec e st1
    | .Function =>
      match p.fnF st with
      | none => none
      | some (.error e) => some (.error e)
      | some (.ok (e, st1)) => p.loopF prec e st1
    | t => some (.error (.invalidToken t))
  loopF := fun prec left st =>
    if st.peek ≠ Token.SemiColon ∧ precLt prec st.peek.precedence then
      match st.peek with
      | .Plus | .Minus | .Slash | .Asterisk | .Eq | .NotEq | .LT | .GT =>
        match p.infixStepF left st.advance with
        | none => none
        | some (.error e) => some (.error e)
        | some (.ok (left2, st2)) => p.loopF prec left2 st2
      | .LParen =>
        match p.callF left st.advance with
        | none => none
        | some (.error e) => some (.error e)
        | some (.ok (left2, st2)) => p.loopF prec left2 st2
      | _ => some (.ok (left, st))
    else some (.ok (left, st))
  prefixF := fun st =>
    match st.cur with
    | .Bang =>
      match p.exprF .prefixOp st.advance with
      | none => none
      | some (.error e) => some (.error e)
      | some (.ok (r, st1)) => some (.ok (.prefixE .bang r, st1))
    | .Minus =>
      match p.exprF .prefixOp st.advance with
      | none => none
      | some (.error e) => some (.error e)
      | some (.ok (r, st1)) => some (.ok (.prefixE .minus r, st1))
    | t => some (.error (.invalidToken t))
  infixStepF := fun left st =>
    let opOf : Token → Option InfixOp := fun t =>
      match t with
      | .Plus => some .plus
      | .Minus => some .minus
      | .Asterisk => some .asterisk
      | .Slash => some .slash
      | .Eq => some .eq
      | .NotEq => some .notEq
      | .LT => some .lt
      | .GT => some .gt
      | _ => none
    match opOf st.cur with
    | none => some (.error (.invalidToken st.cur))
    | some op =>
      let q := st.cur.precedence
      match p.exprF q st.advance with
      | none => none
      | some (.error e) => some (.error e)
      | some (.ok (right, st1)) => some (.ok (.infixE op left right, st1))
  groupF := fun st =>
    match p.exprF .lowest st.advance with
    | none => none
    | some (.error e) => some (.error e)
    | some (.ok (e, st1)) =>
      match expectPeek .RParen st1 with
      | .error e2 => some (.error e2)
      | .ok st2 => some (.ok (e, st2))
  ifF := fun st =>
    match expectPeek .LParen st with
    | .error e => some (.error e)
    | .ok st1 =>
      match p.exprF .lowest st1 with
      | none => none
      | some (.error e) => some (.error e)
      | some (.ok (cond, st2)) =>
        if st2.cur ≠ Token.RParen then
          some (.error (.unexpectedToken .RParen st2.cur))
        else
          match expectPeek .LBrace st2 with
          | .error e => some (.error e)
          | .ok st3 =>
            match p.blockF st3 with
            | none => none
            | some (.error e) => some (.error e)
            | some (.ok (cons, st4)) =>
              if st4.peek = Token.Else then
                match expectPeek .LBrace st4.advance with
                | .error e => some (.error e)
                | .ok st5 =>
                  match p.blockF st5 with
                  | none => none
                  | some (.error e) => some (.error e)
                  | some (.ok (alt, st6)) =>
                    some (.ok (.ifE cond cons (some alt), st6))
              else some (.ok (.ifE cond cons none, st4))
  fnF := fun st =>
    match expectPeek .LParen st with
    | .error e => some (.error e)
    | .ok st1 =>
      match p.fnParamsF st1 with
      | none => none
      | some (.error e) => some (.error e)
      | some (.ok (params, st2)) =>
        match expectPeek .LBrace st2 with
        | .error e => some (.error e)
        | .ok st3 =>
          match p.blockF st3 with
          | none => none
          | some (.error e) => some (.error e)
          | some (.ok (body, st4)) => some (.ok (.function params body, st4))
  fnParamsF := fun st =>
    if st.peek = Token.RParen then some (.ok ([], st.advance))
    else
      let st1 := st.advance
      match st1.cur with
      | .Identifier nm => p.fnParamsLoopF [.identifier nm] st1
      | t => some (.error (.invalidToken t))
  fnParamsLoopF := fun acc st =>
    if st.peek = Token.Comma then
      let st2 := st.advance.advance
      match st2.cur with
      | .Identifier nm => p.fnParamsLoopF (acc ++ [.identifier nm]) st2
      | t => some (.error (.invalidToken t))
    else
      match expectPeek .RParen st with
      | .error e => some (.error e)
      | .ok st1 => some (.ok (acc, st1))
  callF := fun f st =>
    match p.callArgsF st with
    | none => none
    | some (.error e) => some (.error e)
    | some (.ok (args, st1)) => some (.ok (.call f args, st1))
  callArgsF := fun st =>
    if st.peek = Token.RParen then some (.ok ([], st.advance))
    else
      match p.exprF .lowest st.advance with
      | none => none
      | some (.error e) => some (.error e)
      | some (.ok (a, st1)) => p.callArgsLoopF [a] st1
  callArgsLoopF := fun acc st =>
    if st.peek = Token.Comma then
      match p.exprF .lowest st.advance.advance with
      | none => none
      | some (.error e) => some (.error e)
      | some (.ok (a, st1)) => p.callArgsLoopF (acc ++ [a]) st1
    else
      match expectPeek .RParen st with
      | .error e => some (.error e)
      | .ok st1 => some (.ok (acc, st1))
  blockF := fun st =>
    match p.blockLoopF [] st.advance with
    | none => none
    | some (.error e) => some (.error e)
    | some (.ok (ss, st1)) => some (.ok (.block ss, st1))
  blockLoopF := fun acc st =>
    if st.cur = Token.RBrace ∨ st.cur = Token.EOF then some (.ok (acc, st))
    else
      match p.stmtF st with
      | none => none
      | some (.error e) => some (.error e)
      | some (.ok (s, st1)) => p.blockLoopF (acc ++ [s]) st1.advance
  progF := fun acc st =>
    if st.cur = Token.EOF then some (.ok (acc, st))
    else
      match p.stmtF st with
      | none => none
      | some (.error e) => some (.error e)
      | some (.ok (s, st1)) => p.progF (acc ++ [s]) st1.advance

/-- The fuel tower of parser layers. -/
def parseAll : Nat → ParseFns
  | 0 => parseBot
  | n + 1 => parseStep (parseAll n)

/-- `Parser::parse_program` over a token list, projected to the program. -/
def parseProgram (fuel : Nat) (ts : List Token) : Option (Except MonkeyError (List Statement)) :=
  match (parseAll fuel).progF [] (stFor ts) with
  | none => none
  | some (.error e) => some (.error e)
  | some (.ok (prog, _)) => some (.ok prog)

/-- Lex then parse a source byte string (`none` is lexer panic or fuel
exhaustion). -/
def parseSrc (fuel : Nat) (src : List Nat) : Option (Except MonkeyError (List Statement)) :=
  match lexAll src with
  | none => none
  | some ts => parseProgram fuel ts

/-! ## Objects and environments (eval/object.rs, eval/environment.rs)

`Rc<RefCell<Environment>>` is modelled as an index into an explicit store
of environment cells (`Store`).  A `Function` value holds an
`Environment` *by value* (as in `Object::Function { env: Environment }`),
whose `outer` field is the shared cell index of the defining scope. -/

mutual
/-- `object::Object`.  `returnV` is the source's `Return` sentinel. -/
inductive Object where
  | integer (n : Int)
  | string (s : Name)
  | bool (b : Bool)
  | null
  | returnV (o : Object)
  | function (parameters : List Expression) (body : Statement) (env : Environment)

/-- `environment::Environment`: the local `HashMap` (as an association
list — the map is never iterated, only read and inserted into) and the
optional `Rc` of the outer scope (a store index). -/
inductive Environment where
  | mk (store : List (Name × Object)) (outer : Option Nat)
end

/-- Local bindings of an environment. -/
def Environment.store : Environment → List (Name × Object)
  | .mk s _ => s

/-- Outer-scope reference of an environment. -/
def Environment.outer : Environment → Option Nat
  | .mk _ o => o

/-- The heap of environment cells; an `Rc<RefCell<Environment>>` is an
index into it. -/
abbrev Store := List Environment

/-- `HashMap::get` on the local bindings. -/
def storeGet : List (Name × Object) → Name → Option Object
  | [], _ => none
  | (k, v) :: rest, nm => if k = nm then some v else storeGet rest nm

/-- `HashMap::insert` on the local bindings (replace or add). -/
def storeSet : List (Name × Object) → Name → Object → List (Name × Object)
  | [], nm, v => [(nm, v)]
  | (k, w) :: rest, nm, v =>
    if k = nm then (nm, v) :: rest else (k, w) :: storeSet rest nm v

/-- The recursion of `Environment::get` along the outer chain.  The fuel
(`σ.length + 1` at the call site) covers every acyclic chain; reachable
stores only ever link a cell to strictly older cells, so it never runs
out. -/
def envLookupAux (σ : Store) : Nat → Environment → Name → Option Object
  | 0, _, _ => none
  | n + 1, env, nm =>
    match storeGet env.store nm with
    | some v => some v
    | none =>
      match env.outer with
      | some j =>
        match σ.get? j with
        | some e => envLookupAux σ n e nm
        | none => none
      | none => none

/-- `Evaluator::get`: `Environment::get` on the evaluator's cell. -/
def envGet (σ : Store) (i : Nat) (nm : Name) : Option Object :=
  match σ.get? i with
  | some env => envLookupAux σ (σ.length + 1) env nm
  | none => none

/-- `Evaluator::set`: `Environment::set` writes only into cell `i`'s local
map. -/
def envSet (σ : Store) (i : Nat) (nm : Name) (v : Object) : Store :=
  match σ.get? i with
  | some env => σ.set i (.mk (storeSet env.store nm v) env.outer)
  | none => σ

/-- `Object::is_truthy` (object.rs:53-61). -/
def Object.isTruthy : Object → Bool
  | .null => false
  | .bool b => b
  | _ => true

/-! ## Evaluator (eval/mod.rs) -/

/-- Two's-complement wrap into `i64` (release-profile overflow behaviour;
spec section 4.3 leaves overflow implementation-defined). -/
def wrap64 (n : Int) : Int := (n + 2 ^ 63) % 2 ^ 64 - 2 ^ 63

/-- Result of the pure value-level operations: Rust's
`Result<Object, MonkeyError>`, plus `panic` for integer division panics. -/
inductive PureRes where
  | ok (o : Object)
  | err (e : MonkeyError)
  | panic

/-- `Evaluator::eval_infix_expression` (mod.rs:180-218).  Integer `+ - *`
wrap; `/` truncates toward zero and panics on division by zero and on
`i64::MIN / -1`. -/
def evalInfixExpression (operator : InfixOp) (left right : Object) : PureRes :=
  match left, right with
  | .integer a, .integer b =>
    match operator with
    | .eq => .ok (.bool (a = b))
    | .notEq => .ok (.bool (a ≠ b))
    | .lt => .ok (.bool (a < b))
    | .gt => .ok (.bool (b < a))
    | .plus => .ok (.integer (wrap64 (a + b)))
    | .minus => .ok (.integer (wrap64 (a - b)))
    | .slash =>
      if b = 0 then .panic
      else if a = -(2 ^ 63) ∧ b = -1 then .panic
      else .ok (.integer (Int.tdiv a b))
    | .asterisk => .ok (.integer (wrap64 (a * b)))
  | .bool a, .bool b =>
    match operator with
    | .eq => .ok (.bool (a = b))
    | .notEq => .ok (.bool (a ≠ b))
    | op => .err (.unknownOperator op .bool .bool)
  | .integer _, .bool _ => .err (.typeMismatch operator .integer .bool)
  | .bool _, .integer _ => .err (.typeMismatch operator .bool .integer)
  | _, _ => .ok .null

/-- `Evaluator::eval_prefix_expression` (mod.rs:220-236). -/
def evalPrefixExpression (operator : PrefixOp) (right : Object) : PureRes :=
  match operator with
  | .bang =>
    match right with
    | .bool b => .ok (.bool (!b))
    | .null => .ok (.bool true)
    | _ => .ok (.bool false)
  | .minus =>
    match right with
    | .integer n => .ok (.integer (wrap64 (-n)))
    | _ => .ok .null

/-- Result of one evaluator function: the object and the updated store, a
propagating `MonkeyError` (mutations before the error persist in the
store it carries), a Rust `panic`, or fuel exhaustion (`timeout`, never a
Rust behaviour). -/
inductive EvalRes where
  | ok (o : Object) (σ : Store)
  | err (e : MonkeyError) (σ : Store)
  | panic
  | timeout

/-- `eval_expressions`' result: the evaluated list or a propagated
failure. -/
inductive ListEvalRes where
  | ok (os : List Object) (σ : Store)
  | err (e : MonkeyError) (σ : Store)
  | panic
  | timeout

/-- Lift a pure result into an evaluator result at store `σ`. -/
def PureRes.lift : PureRes → Store → EvalRes
  | .ok o, σ => .ok o σ
  | .err e, σ => .err e σ
  | .panic, _ => .panic

/-- `from_env` + the parameter-binding loop of `apply_function`: clone the
function's captured environment into a fresh cell and bind each
`Identifier` parameter to its argument (non-identifier parameters are
silently skipped, as in the source). -/
def bindParams (ps : List Expression) (args : List Object) (env : Environment) : Environment :=
  .mk (((ps.zip args).foldl (fun st pa =>
          match pa.1 with
          | .identifier nm => storeSet st nm pa.2
          | _ => st) env.store)) env.outer

/-- One layer of every evaluator function; the `Nat` argument before the
syntax is the evaluator's environment-cell index (`Evaluator.env`). -/
structure EvalFns where
  exprF : Store → Nat → Expression → EvalRes
  exprsF : Store → Nat → List Expression → ListEvalRes
  stmtF : Store → Nat → Statement → EvalRes
  blockF : Store → Nat → List Statement → EvalRes
  applyF : Store → Object → List Object → EvalRes
  progF : Store → Nat → List Statement → EvalRes

/-- The all-timeout bottom layer. -/
def evalBot : EvalFns where
  exprF := fun _ _ _ => .timeout
  exprsF := fun _ _ _ => .timeout
  stmtF := fun _ _ _ => .timeout
  blockF := fun _ _ _ => .timeout
  applyF := fun _ _ _ => .timeout
  progF := fun _ _ _ => .timeout

/-- Build evaluator layer `n + 1` from layer `n` (`p`); each field
transcribes the corresponding `Evaluator` method. -/
def evalStep (p : EvalFns) : EvalFns where
  exprF := fun σ i e =>
    match e with
    | .integer n => .ok (.integer n) σ
    | .string s => .ok (.string s) σ
    | .boolean b => .ok (.bool b) σ
    | .prefixE op r =>
      match p.exprF σ i r with
      | .ok rv σ1 => (evalPrefixExpression op rv).lift σ1
      | other => other
    | .infixE op l r =>
      match p.exprF σ i r with
      | .ok rv σ1 =>
        match p.exprF σ1 i l with
        | .ok lv σ2 => (evalInfixExpression op lv rv).lift σ2
        | other => other
      | other => other
    | .ifE c cons alt =>
      match p.exprF σ i c with
      | .ok cv σ1 =>
        if cv.isTruthy then p.stmtF σ1 i cons
        else
          match alt with
          | some a => p.stmtF σ1 i a
          | none => .ok .null σ1
      | other => other
    | .identifier nm =>
      match envGet σ i nm with
      | some v => .ok v σ
      | none => .err .identifierNotFound σ
    | .function ps body => .ok (.function ps body (.mk [] (some i))) σ
    | .call f args =>
      match p.exprsF σ i args with
      | .ok vs σ1 =>
        match p.exprF σ1 i f with
        | .ok fv σ2 => p.applyF σ2 fv vs
        | other => other
      | .err e σ1 => .err e σ1
      | .panic => .panic
      | .timeout => .timeout
  exprsF := fun σ i es =>
    match es with
    | [] => .ok [] σ
    | e :: rest =>
      match p.exprF σ i e with
      | .ok v σ1 =>
        match p.exprsF σ1 i rest with
        | .ok vs σ2 => .ok (v :: vs) σ2
        | other => other
      | .err e1 σ1 => .err e1 σ1
      | .panic => .panic
      | .timeout => .timeout
  stmtF := fun σ i s =>
    match s with
    | .expression e => p.exprF σ i e
    | .block ss => p.blockF σ i ss
    | .returnS e =>
      match p.exprF σ i e with
      | .ok v σ1 => .ok (.returnV v) σ1
      | other => other
    | .letS id v =>
      match id with
      | .identifier nm =>
        match p.exprF σ i v with
        | .ok val σ1 => .ok .null (envSet σ1 i nm val)
        | other => other
      | _ => .panic
  blockF := fun σ i ss =>
    match ss with
    | [] => .ok .null σ
    | s :: rest =>
      match p.stmtF σ i s with
      | .ok v σ1 =>
        match v with
        | .returnV w => .ok (.returnV w) σ1
        | _ =>
          match rest with
          | [] => .ok v σ1
          | _ => p.blockF σ1 i rest
      | other => other
  applyF := fun σ fobj args =>
    match fobj with
    | .function ps body env =>
      if ps.length ≠ args.length then
        .err (.incorrectNumberOfArguments args.length ps.length) σ
      else
        match p.stmtF (σ ++ [bindParams ps args env]) σ.length body with
        | .ok (.returnV v) σ2 => .ok v σ2
        | .ok o σ2 => .ok o σ2
        | other => other
    | _ => .err .unknown σ
  progF := fun σ i ss =>
    match ss with
    | [] => .ok .null σ
    | s :: rest =>
      match p.stmtF σ i s with
      | .ok v σ1 =>
        match v with
        | .returnV w => .ok w σ1
        | _ =>
          match rest with
          | [] => .ok v σ1
          | _ => p.progF σ1 i rest
      | other => other

/-- The fuel tower of evaluator layers. -/
def evalAll : Nat → EvalFns
  | 0 => evalBot
  | n + 1 => evalStep (evalAll n)

/-- `Evaluator::eval_expression`. -/
def evalExpression (fuel : Nat) (σ : Store) (i : Nat) (e : Expression) : EvalRes :=
  (evalAll fuel).exprF σ i e

/-- `Evaluator::eval_expressions`. -/
def evalExpressions (fuel : Nat) (σ : Store) (i : Nat) (es : List Expression) : ListEvalRes :=
  (evalAll fuel).exprsF σ i es

/-- `Evaluator::eval_statement`. -/
def evalStatement (fuel : Nat) (σ : Store) (i : Nat) (s : Statement) : EvalRes :=
  (evalAll fuel).stmtF σ i s

/-- `Evaluator::eval_block_statement`. -/
def evalBlockStmts (fuel : Nat) (σ : Store) (i : Nat) (ss : List Statement) : EvalRes :=
  (evalAll fuel).blockF σ i ss

/-- `Evaluator::apply_function`. -/
def applyFunction (fuel : Nat) (σ : Store) (fobj : Object) (args : List Object) : EvalRes :=
  (evalAll fuel).applyF σ fobj args

/-- `Evaluator::evaluate`. -/
def evaluateProgram (fuel : Nat) (σ : Store) (i : Nat) (ss : List Statement) : EvalRes :=
  (evalAll fuel).progF σ i ss

/-- The store of `Evaluator::new()`: one root cell. -/
def initialStore : Store := [.mk [] none]

/-- Final result of the whole pipeline (store dropped). -/
inductive RunRes where
  | ok (o : Object)
  | err (e : MonkeyError)
  | panic
  | timeout

/-- Lex, parse, evaluate from a fresh environment — the interpreter entry
point the tests use (`generate_program` + `Evaluator::new` +
`evaluate`). -/
def runProgram (fuel : Nat) (src : List Nat) : RunRes :=
  match lexAll src with
  | none => .panic
  | some ts =>
    match parseProgram fuel ts with
    | none => .timeout
    | some (.error e) => .err e
    | some (.ok prog) =>
      match evaluateProgram fuel initialStore 0 prog with
      | .ok o _ => .ok o
      | .err e _ => .err e
      | .panic => .panic
      | .timeout => .timeout

/-- Is this object an `Integer`?  (Used to state which infix operand pairs
the `(Integer, Integer)` arm covers.) -/
def Object.isIntB : Object → Bool
  | .integer _ => true
  | _ => false

/-- Modelled from the claim's words (C6, spec section 4.3's infix table for
non-integer operand pairs), for comparison with the source-derived
`evalInfixExpression`: on `(Bool, Bool)` only `==`/`!=` produce a `Bool`
and every other operator is `UnknownOperator{op, Bool, Bool}`; mixed
`Integer`/`Bool` pairs are `TypeMismatch` carrying the operand type tags
in operand order; every other mixture evaluates to `Null`. -/
def infixClaimTable (operator : InfixOp) (left right : Object) : PureRes :=
  match left, right with
  | .bool a, .bool b =>
    match operator with
    | .eq => .ok (.bool (a = b))
    | .notEq => .ok (.bool (a ≠ b))
    | op => .err (.unknownOperator op .bool .bool)
  | .integer _, .bool _ => .err (.typeMismatch operator .integer .bool)
  | .bool _, .integer _ => .err (.typeMismatch operator .bool .integer)
  | _, _ => .ok .null

/-! ## Infrastructure for the printer round trip (C7)

The round-trip proof needs (a) a suffix view of the lexer — `next_token`
depends only on the input bytes from the current position, a fact proved
as a simulation against the list-level `lexStep` below — and (b) the
token sequence of a displayed expression. -/

/-- The unread input, from the current position. -/
def Lexer.suffix (l : Lexer) : List Nat := l.input.drop l.position

/-- Reachable-lexer invariant: `read_position` is one past `position`,
and `ch` caches the byte at `position` (`0` at or past the end).
`read_char` establishes it from any state, and `Lexer::new` calls
`read_char`. -/
def Lexer.wf (l : Lexer) : Prop :=
  l.readPosition = l.position + 1 ∧ l.ch = l.suffix.headD 0

/-- The byte a `read_string` scan stops at: closing quote or NUL. -/
def stopStrB (c : Nat) : Bool := c = 34 || c = 0

/-- Byte dispatch of the list-level lexer, on an already-skipped suffix. -/
def lexStepCore : List Nat → Option (Token × List Nat)
  | [] => some (.EOF, [])
  | c :: rest =>
    if c = 61 then
      match rest with
      | [] => some (.Assign, [])
      | d :: rest2 => if d = 61 then some (.Eq, rest2) else some (.Assign, d :: rest2)
    else if c = 43 then some (.Plus, rest)
    else if c = 45 then some (.Minus, rest)
    else if c = 33 then
      (match rest with
       | [] => some (.Bang, [])
       | d :: rest2 => if d = 61 then some (.NotEq, rest2) else some (.Bang, d :: rest2))
    else if c = 47 then some (.Slash, rest)
    else if c = 42 then some (.Asterisk, rest)
    else if c = 60 then some (.LT, rest)
    else if c = 62 then some (.GT, rest)
    else if c = 59 then some (.SemiColon, rest)
    else if c = 44 then some (.Comma, rest)
    else if c = 40 then some (.LParen, rest)
    else if c = 41 then some (.RParen, rest)
    else if c = 123 then some (.LBrace, rest)
    else if c = 125 then some (.RBrace, rest)
    else if c = 34 then
      some (.StringLiteral (rest.takeWhile (fun b => !stopStrB b)),
        (rest.dropWhile (fun b => !stopStrB b)).tail)
    else if c = 0 then some (.EOF, rest)
    else if isLetterB c then
      some (keywordOrIdent ((c :: rest).takeWhile isLetterB),
        (c :: rest).dropWhile isLetterB)
    else if isDigitB c then
      match parseI64 ((c :: rest).takeWhile isDigitB) with
      | some n => some (.IntLiteral n, (c :: rest).dropWhile isDigitB)
      | none => none
    else some (.Illegal, rest)

/-- List-level mirror of `next_token`: the token and remaining bytes,
computed from the unread suffix alone (`nextToken_sim` proves the
correspondence on well-formed lexer states). -/
def lexStep (s : List Nat) : Option (Token × List Nat) :=
  lexStepCore (s.dropWhile isWsB)

/-- List-level mirror of `lexAllAux`. -/
def listLexAllAux : Nat → List Nat → Option (List Token)
  | 0, _ => none
  | n + 1, s =>
    match lexStep s with
    | some (.EOF, _) => some []
    | some (t, s') => (listLexAllAux n s').map (t :: ·)
    | none => none

/-- The token of a binary operator, as the printer renders it. -/
def infixTok : InfixOp → Token
  | .eq => .Eq
  | .notEq => .NotEq
  | .lt => .LT
  | .gt => .GT
  | .plus => .Plus
  | .minus => .Minus
  | .slash => .Slash
  | .asterisk => .Asterisk

/-- The token of a prefix operator. -/
def prefixTok : PrefixOp → Token
  | .bang => .Bang
  | .minus => .Minus

mutual
/-- The token sequence the display of a printable expression lexes to. -/
def tokE : Expression → List Token
  | .identifier nm => [.Identifier nm]
  | .integer n => [.IntLiteral n]
  | .boolean b => [if b then .True else .False]
  | .prefixE op r => .LParen :: prefixTok op :: tokE r ++ [.RParen]
  | .infixE op l r => .LParen :: (tokE l ++ infixTok op :: tokE r ++ [.RParen])
  | .call f args => tokE f ++ .LParen :: tokArgs args ++ [.RParen]
  | _ => []

/-- Tokens of a comma-separated argument list. -/
def tokArgs : List Expression → List Token
  | [] => []
  | a :: as => tokE a ++ tokArgsSep as

/-- Tokens of the remaining arguments, each preceded by its comma. -/
def tokArgsSep : List Expression → List Token
  | [] => []
  | a :: as => .Comma :: (tokE a ++ tokArgsSep as)
end

/-- The last token of a printable expression's display. -/
def lastTok : Expression → Token
  | .identifier nm => .Identifier nm
  | .integer n => .IntLiteral n
  | .boolean b => if b then .True else .False
  | .prefixE _ _ => .RParen
  | .infixE _ _ _ => .RParen
  | .call _ _ => .RParen
  | _ => .EOF

/-- Keyword byte strings of the lexer. -/
def keywordList : List Name :=
  [strBytes "fn", strBytes "let", strBytes "if", strBytes "else",
   strBytes "return", strBytes "true", strBytes "false"]

/-- A name the lexer would tokenize back as `Identifier nm`: nonempty,
letters only, not a keyword. -/
def validIdent (nm : Name) : Bool :=
  decide (nm ≠ []) && nm.all isLetterB && decide (nm ∉ keywordList)

mutual
/-- The expression fragment of the amended round-trip claim: built from
identifiers (as the lexer produces them), in-range non-negative integer
literals, booleans, prefix and infix operators, and calls — no string
literals, no `if`, no function literals, whose display goes through the
Debug-formatting `Statement` display. -/
def printableE : Expression → Bool
  | .identifier nm => validIdent nm
  | .integer n => decide (0 ≤ n) && decide (n ≤ (i64Max : Int))
  | .boolean _ => true
  | .prefixE _ r => printableE r
  | .infixE _ l r => printableE l && printableE r
  | .call f args => printableE f && printableArgs args
  | _ => false

/-- All arguments printable. -/
def printableArgs : List Expression → Bool
  | [] => true
  | a :: as => printableE a && printableArgs as
end

mutual
/-- Parser-fuel bound for the round-trip proof (generous). -/
def pfE : Expression → Nat
  | .identifier _ => 4
  | .integer _ => 4
  | .boolean _ => 4
  | .prefixE _ r => pfE r + 12
  | .infixE _ l r => pfE l + pfE r + 16
  | .call f args => pfE f + pfArgs args + 16
  | _ => 0

/-- Fuel bound for an argument list. -/
def pfArgs : List Expression → Nat
  | [] => 4
  | a :: as => pfE a + pfArgs as + 12
end

mutual
/-- Structural size, the measure of the round-trip induction. -/
def sizeE : Expression → Nat
  | .identifier _ => 1
  | .integer _ => 1
  | .boolean _ => 1
  | .prefixE _ r => sizeE r + 1
  | .infixE _ l r => sizeE l + sizeE r + 1
  | .call f args => sizeE f + sizeArgs args + 1
  | _ => 1

/-- Size of an argument list. -/
def sizeArgs : List Expression → Nat
  | [] => 1
  | a :: as => sizeE a + sizeArgs as + 1
end

/-- Parser cursor sitting on the token `t`, with `ts` still ahead. -/
def stAfter (t : Token) (ts : List Token) : PState :=
  { cur := t, peek := ts.headD .EOF, rest := ts.tail }

/-- Parser cursor at the start of the stream `ts`. -/
def startSt (ts : List Token) : PState :=
  { cur := ts.headD .EOF, peek := ts.tail.headD .EOF, rest := ts.tail.tail }

/-- `lexesTo s ts s'`: starting from the byte suffix `s`, `ts.length`
calls of the (list-level) lexer produce exactly the tokens `ts`, leaving
the suffix `s'`. -/
def lexesTo : List Nat → List Token → List Nat → Prop
  | s, [], s' => s = s'
  | s, t :: ts, s' => ∃ s1, lexStep s = some (t, s1) ∧ lexesTo s1 ts s'

/-- Tokens that can start an expression in the printable fragment. -/
def exprStartTok : Token → Bool
  | .Identifier _ => true
  | .IntLiteral _ => true
  | .True => true
  | .False => true
  | .LParen => true
  | _ => false

/-! ## Sanity checks: concrete runs of the embedded pipeline -/

example : lexAll (strBytes "let x = 5;") =
    some [.Let, .Identifier (strBytes "x"), .Assign, .IntLiteral 5, .SemiColon] := by
  rfl

example : lexAll (strBytes "a == b != ! <>") =
    some [.Identifier (strBytes "a"), .Eq, .Identifier (strBytes "b"), .NotEq,
          .Bang, .LT, .GT] := by rfl

example : nextToken (Lexer.new (strBytes "9223372036854775807")) =
    some (.IntLiteral 9223372036854775807,
      { input := strBytes "9223372036854775807", position := 19,
        readPosition := 20, ch := 0 }) := by rfl

example : displayExpr (.infixE .plus (.prefixE .minus (.identifier (strBytes "a")))
    (.integer 5)) = strBytes "((-a)+5)" := by rfl

example : displayExpr (.function [.identifier (strBytes "x")]
      (.block [.expression (.identifier (strBytes "x"))])) =
    strBytes "fn(x)\x7bIdentifier(\"x\");\x7d" := by rfl

example : parseSrc 30 (strBytes "-a*b") =
    some (.ok [.expression (.infixE .asterisk
      (.prefixE .minus (.identifier (strBytes "a"))) (.identifier (strBytes "b")))]) := by
  rfl

example : parseSrc 30 (strBytes "a+add(b*c)+d") =
    some (.ok [.expression (.infixE .plus
      (.infixE .plus (.identifier (strBytes "a"))
        (.call (.identifier (strBytes "add"))
          [.infixE .asterisk (.identifier (strBytes "b")) (.identifier (strBytes "c"))]))
      (.identifier (strBytes "d")))]) := by rfl

example : parseSrc 30 (strBytes "let x = 5;") =
    some (.ok [.letS (.identifier (strBytes "x")) (.integer 5)]) := by rfl

example : parseSrc 30 (strBytes "if (x < y) \x7b x \x7d else \x7b y \x7d") =
    some (.ok [.expression (.ifE
      (.infixE .lt (.identifier (strBytes "x")) (.identifier (strBytes "y")))
      (.block [.expression (.identifier (strBytes "x"))])
      (some (.block [.expression (.identifier (strBytes "y"))])))]) := by rfl

example : parseSrc 30 (strBytes "fn(x, y) \x7b x + y \x7d") =
    some (.ok [.expression (.function
      [.identifier (strBytes "x"), .identifier (strBytes "y")]
      (.block [.expression (.infixE .plus (.identifier (strBytes "x"))
        (.identifier (strBytes "y")))]))]) := by rfl

example : runProgram 30 (strBytes "(5 + 10 * 2 + 15 / 3) * 2 + -10") =
    .ok (.integer 50) := by rfl

example : runProgram 30 (strBytes "let a = 5; let b = a; let c = a + b + 5; c;") =
    .ok (.integer 15) := by rfl

example : runProgram 30 (strBytes "if (1 > 2) \x7b 10 \x7d else \x7b 20 \x7d") =
    .ok (.integer 20) := by rfl

example : runProgram 30 (strBytes "let identity = fn(x) \x7b x \x7d; identity(5);") =
    .ok (.integer 5) := by rfl

example : runProgram 30 (strBytes "let add = fn(x,y)\x7bx+y\x7d; add(5+5, add(5,5));") =
    .ok (.integer 20) := by rfl

example : runProgram 30 (strBytes "5 + true;") =
    .err (.typeMismatch .plus .integer .bool) := by rfl

example : runProgram 30 (strBytes "foobar") = .err .identifierNotFound := by rfl

example : runProgram 30 (strBytes "-(5+5)") = .ok (.integer (-10)) := by rfl

/-! ## Unfolding equations

Definitional equations of the fuel towers, shared by the claim proofs. -/

theorem evalExpression_succ_infixE (n : Nat) (σ : Store) (i : Nat)
    (op : InfixOp) (l r : Expression) :
    evalExpression (n + 1) σ i (.infixE op l r) =
      (match evalExpression n σ i r with
       | .ok rv σ1 =>
         (match evalExpression n σ1 i l with
          | .ok lv σ2 => (evalInfixExpression op lv rv).lift σ2
          | other => other)
       | other => other) := rfl

theorem evalExpression_succ_ifE (n : Nat) (σ : Store) (i : Nat)
    (c : Expression) (cons : Statement) (alt : Option Statement) :
    evalExpression (n + 1) σ i (.ifE c cons alt) =
      (match evalExpression n σ i c with
       | .ok cv σ1 =>
         if cv.isTruthy then evalStatement n σ1 i cons
         else
           match alt with
           | some a => evalStatement n σ1 i a
           | none => .ok .null σ1
       | other => other) := rfl

theorem evalStatement_succ_block (n : Nat) (σ : Store) (i : Nat)
    (ss : List Statement) :
    evalStatement (n + 1) σ i (.block ss) = evalBlockStmts n σ i ss := rfl

theorem evalBlockStmts_succ_cons (n : Nat) (σ : Store) (i : Nat)
    (s : Statement) (rest : List Statement) :
    evalBlockStmts (n + 1) σ i (s :: rest) =
      (match evalStatement n σ i s with
       | .ok v σ1 =>
         (match v with
          | .returnV w => .ok (.returnV w) σ1
          | _ =>
            match rest with
            | [] => .ok v σ1
            | _ => evalBlockStmts n σ1 i rest)
       | other => other) := rfl

theorem evaluateProgram_succ_cons (n : Nat) (σ : Store) (i : Nat)
    (s : Statement) (rest : List Statement) :
    evaluateProgram (n + 1) σ i (s :: rest) =
      (match evalStatement n σ i s with
       | .ok v σ1 =>
         (match v with
          | .returnV w => .ok w σ1
          | _ =>
            match rest with
            | [] => .ok v σ1
            | _ => evaluateProgram n σ1 i rest)
       | other => other) := rfl

theorem applyFunction_succ (n : Nat) (σ : Store) (ps : List Expression)
    (body : Statement) (env : Environment) (args : List Object) :
    applyFunction (n + 1) σ (.function ps body env) args =
      (if ps.length ≠ args.length then
        .err (.incorrectNumberOfArguments args.length ps.length) σ
      else
        match evalStatement n (σ ++ [bindParams ps args env]) σ.length body with
        | .ok (.returnV v) σ2 => .ok v σ2
        | .ok o σ2 => .ok o σ2
        | other => other) := rfl

/-! ## Store frame lemmas -/

theorem get?_set_ne : ∀ (l : Store) (i j : Nat) (a : Environment), j ≠ i →
    (l.set i a).get? j = l.get? j
  | [], _, _, _, _ => rfl
  | x :: xs, 0, 0, a, h => absurd rfl h
  | x :: xs, 0, j + 1, a, h => rfl
  | x :: xs, i + 1, 0, a, h => rfl
  | x :: xs, i + 1, j + 1, a, h => by
    simpa using get?_set_ne xs i j a (by omega)

theorem get?_append_lt : ∀ (l l2 : Store) (j : Nat), j < l.length →
    (l ++ l2).get? j = l.get? j
  | [], _, _, h => absurd h (by simp)
  | x :: xs, l2, 0, _ => rfl
  | x :: xs, l2, j + 1, h => by
    simpa using get?_append_lt xs l2 j (by simpa using h)

theorem envSet_length (σ : Store) (i : Nat) (nm : Name) (v : Object) :
    (envSet σ i nm v).length = σ.length := by
  unfold envSet
  cases σ.get? i with
  | none => rfl
  | some env => simp

theorem envSet_get_ne (σ : Store) (i : Nat) (nm : Name) (v : Object)
    (j : Nat) (h : j ≠ i) : (envSet σ i nm v).get? j = σ.get? j := by
  unfold envSet
  cases σ.get? i with
  | none => rfl
  | some env => exact get?_set_ne σ i j _ h

/-- Frame property of every evaluator function: a successful evaluation
with environment cell `i` never shrinks the store and never changes any
pre-existing cell other than `i`; `apply_function` additionally leaves
even the caller's cell `i` alone, since its body runs in a freshly pushed
cell. -/
theorem evalFrame : ∀ n : Nat,
    (∀ σ i e v σ', (evalAll n).exprF σ i e = .ok v σ' →
      σ.length ≤ σ'.length ∧ ∀ j, j < σ.length → j ≠ i → σ'.get? j = σ.get? j) ∧
    (∀ σ i es vs σ', (evalAll n).exprsF σ i es = .ok vs σ' →
      σ.length ≤ σ'.length ∧ ∀ j, j < σ.length → j ≠ i → σ'.get? j = σ.get? j) ∧
    (∀ σ i s v σ', (evalAll n).stmtF σ i s = .ok v σ' →
      σ.length ≤ σ'.length ∧ ∀ j, j < σ.length → j ≠ i → σ'.get? j = σ.get? j) ∧
    (∀ σ i ss v σ', (evalAll n).blockF σ i ss = .ok v σ' →
      σ.length ≤ σ'.length ∧ ∀ j, j < σ.length → j ≠ i → σ'.get? j = σ.get? j) ∧
    (∀ σ f args v σ', (evalAll n).applyF σ f args = .ok v σ' →
      σ.length ≤ σ'.length ∧ ∀ j, j < σ.length → σ'.get? j = σ.get? j) ∧
    (∀ σ i ss v σ', (evalAll n).progF σ i ss = .ok v σ' →
      σ.length ≤ σ'.length ∧ ∀ j, j < σ.length → j ≠ i → σ'.get? j = σ.get? j) := by
  intro n
  induction n with
  | zero =>
    refine ⟨?_, ?_, ?_, ?_, ?_, ?_⟩ <;> intro σ i e v σ' h <;>
      simp [evalAll, evalBot] at h
  | succ n ih =>
    obtain ⟨ihE, ihEs, ihS, ihB, ihA, ihP⟩ := ih
    have tr : ∀ {σ σ1 σ2 : Store} {i : Nat},
        (σ.length ≤ σ1.length ∧ ∀ j, j < σ.length → j ≠ i → σ1.get? j = σ.get? j) →
        (σ1.length ≤ σ2.length ∧ ∀ j, j < σ1.length → j ≠ i → σ2.get? j = σ1.get? j) →
        σ.length ≤ σ2.length ∧ ∀ j, j < σ.length → j ≠ i → σ2.get? j = σ.get? j := by
      rintro σ σ1 σ2 i ⟨l1, a1⟩ ⟨l2, a2⟩
      exact ⟨le_trans l1 l2, fun j hj hij => (a2 j (lt_of_lt_of_le hj l1) hij).trans (a1 j hj hij)⟩
    have rfll : ∀ {σ : Store} {i : Nat},
        σ.length ≤ σ.length ∧ ∀ j, j < σ.length → j ≠ i → σ.get? j = σ.get? j :=
      ⟨le_refl _, fun j _ _ => rfl⟩
    refine ⟨?_, ?_, ?_, ?_, ?_, ?_⟩
    · -- exprF
      intro σ i e v σ' h
      simp only [evalAll, evalStep] at h
      cases e with
      | identifier nm =>
        cases hg : envGet σ i nm with
        | none => simp [hg] at h
        | some w =>
          simp [hg] at h
          obtain ⟨hv, hσ⟩ := h
          subst hσ
          exact rfll
      | string s =>
        simp at h
        obtain ⟨hv, hσ⟩ := h
        subst hσ
        exact rfll
      | integer k =>
        simp at h
        obtain ⟨hv, hσ⟩ := h
        subst hσ
        exact rfll
      | boolean b =>
        simp at h
        obtain ⟨hv, hσ⟩ := h
        subst hσ
        exact rfll
      | function ps body =>
        simp at h
        obtain ⟨hv, hσ⟩ := h
        subst hσ
        exact rfll
      | prefixE op r =>
        cases hr : (evalAll n).exprF σ i r with
        | ok rv σ1 =>
          simp only [hr] at h
          cases hp : evalPrefixExpression op rv <;>
            simp [PureRes.lift, hp] at h
          exact h.2 ▸ ihE σ i r rv σ1 hr
        | err e1 σ1 => simp [hr] at h
        | panic => simp [hr] at h
        | timeout => simp [hr] at h
      | infixE op l r =>
        cases hr : (evalAll n).exprF σ i r with
        | ok rv σ1 =>
          simp only [hr] at h
          cases hl : (evalAll n).exprF σ1 i l with
          | ok lv σ2 =>
            simp only [hl] at h
            cases hp : evalInfixExpression op lv rv <;>
              simp [PureRes.lift, hp] at h
            exact h.2 ▸ tr (ihE σ i r rv σ1 hr) (ihE σ1 i l lv σ2 hl)
          | err e1 σ2 => simp [hl] at h
          | panic => simp [hl] at h
          | timeout => simp [hl] at h
        | err e1 σ1 => simp [hr] at h
        | panic => simp [hr] at h
        | timeout => simp [hr] at h
      | ifE c cons alt =>
        cases hc : (evalAll n).exprF σ i c with
        | ok cv σ1 =>
          simp only [hc] at h
          by_cases ht : cv.isTruthy = true
          · rw [if_pos ht] at h
            exact tr (ihE σ i c cv σ1 hc) (ihS σ1 i cons v σ' h)
          · rw [if_neg ht] at h
            cases alt with
            | some a => exact tr (ihE σ i c cv σ1 hc) (ihS σ1 i a v σ' h)
            | none =>
              simp at h
              obtain ⟨hv, hσ⟩ := h
              exact hσ ▸ ihE σ i c cv σ1 hc
        | err e1 σ1 => simp [hc] at h
        | panic => simp [hc] at h
        | timeout => simp [hc] at h
      | call f args =>
        cases ha : (evalAll n).exprsF σ i args with
        | ok vs σ1 =>
          simp only [ha] at h
          cases hf : (evalAll n).exprF σ1 i f with
          | ok fv σ2 =>
            simp only [hf] at h
            have h3 := ihA σ2 fv vs v σ' h
            have h12 := tr (ihEs σ i args vs σ1 ha) (ihE σ1 i f fv σ2 hf)
            exact tr h12 ⟨h3.1, fun j hj _ => h3.2 j hj⟩
          | err e1 σ2 => simp [hf] at h
          | panic => simp [hf] at h
          | timeout => simp [hf] at h
        | err e1 σ1 => simp [ha] at h
        | panic => simp [ha] at h
        | timeout => simp [ha] at h
    · -- exprsF
      intro σ i es vs σ' h
      simp only [evalAll, evalStep] at h
      cases es with
      | nil =>
        simp at h
        obtain ⟨hv, hσ⟩ := h
        subst hσ
        exact rfll
      | cons e rest =>
        cases he : (evalAll n).exprF σ i e with
        | ok v1 σ1 =>
          simp only [he] at h
          cases hrest : (evalAll n).exprsF σ1 i rest with
          | ok vs2 σ2 =>
            simp only [hrest] at h
            simp at h
            obtain ⟨hv, hσ⟩ := h
            exact hσ ▸ tr (ihE σ i e v1 σ1 he) (ihEs σ1 i rest vs2 σ2 hrest)
          | err e1 σ2 => simp [hrest] at h
          | panic => simp [hrest] at h
          | timeout => simp [hrest] at h
        | err e1 σ1 => simp [he] at h
        | panic => simp [he] at h
        | timeout => simp [he] at h
    · -- stmtF
      intro σ i s v σ' h
      simp only [evalAll, evalStep] at h
      cases s with
      | expression e => exact ihE σ i e v σ' h
      | block ss => exact ihB σ i ss v σ' h
      | returnS e =>
        cases he : (evalAll n).exprF σ i e with
        | ok v1 σ1 =>
          simp only [he] at h
          simp at h
          obtain ⟨hv, hσ⟩ := h
          exact hσ ▸ ihE σ i e v1 σ1 he
        | err e1 σ1 => simp [he] at h
        | panic => simp [he] at h
        | timeout => simp [he] at h
      | letS id val =>
        cases id with
        | identifier nm =>
          cases he : (evalAll n).exprF σ i val with
          | ok v1 σ1 =>
            simp only [he] at h
            simp at h
            obtain ⟨hv, hσ⟩ := h
            subst hσ
            have base := ihE σ i val v1 σ1 he
            refine ⟨?_, ?_⟩
            · rw [envSet_length]; exact base.1
            · intro j hj hij
              rw [envSet_get_ne σ1 i nm v1 j hij]
              exact base.2 j hj hij
          | err e1 σ1 => simp [he] at h
          | panic => simp [he] at h
          | timeout => simp [he] at h
        | string s1 => simp at h
        | integer k => simp at h
        | prefixE op r => simp at h
        | infixE op l r => simp at h
        | boolean b => simp at h
        | ifE c cons alt => simp at h
        | function ps body => simp at h
        | call f args => simp at h
    · -- blockF
      intro σ i ss v σ' h
      simp only [evalAll, evalStep] at h
      cases ss with
      | nil =>
        simp at h
        obtain ⟨hv, hσ⟩ := h
        subst hσ
        exact rfll
      | cons s rest =>
        cases hs : (evalAll n).stmtF σ i s with
        | ok v1 σ1 =>
          simp only [hs] at h
          have base := ihS σ i s v1 σ1 hs
          cases v1 with
          | returnV w =>
            simp at h
            exact h.2 ▸ base
          | integer k =>
            cases rest with
            | nil => simp at h; exact h.2 ▸ base
            | cons s2 rest2 => exact tr base (ihB σ1 i _ v σ' h)
          | string s1 =>
            cases rest with
            | nil => simp at h; exact h.2 ▸ base
            | cons s2 rest2 => exact tr base (ihB σ1 i _ v σ' h)
          | bool b =>
            cases rest with
            | nil => simp at h; exact h.2 ▸ base
            | cons s2 rest2 => exact tr base (ihB σ1 i _ v σ' h)
          | null =>
            cases rest with
            | nil => simp at h; exact h.2 ▸ base
            | cons s2 rest2 => exact tr base (ihB σ1 i _ v σ' h)
          | function ps body env =>
            cases rest with
            | nil => simp at h; exact h.2 ▸ base
            | cons s2 rest2 => exact tr base (ihB σ1 i _ v σ' h)
        | err e1 σ1 => simp [hs] at h
        | panic => simp [hs] at h
        | timeout => simp [hs] at h
    · -- applyF
      intro σ f args v σ' h
      simp only [evalAll, evalStep] at h
      cases f with
      | function ps body env =>
        dsimp only at h
        by_cases hlen : ps.length = args.length
        · rw [if_neg (fun hc => hc hlen)] at h
          cases hb : (evalAll n).stmtF (σ ++ [bindParams ps args env]) σ.length body with
          | ok v1 σ2 =>
            have base := ihS (σ ++ [bindParams ps args env]) σ.length body v1 σ2 hb
            have hlenσ : σ.length ≤ σ2.length := by
              have := base.1
              simp at this
              omega
            have hag : ∀ j, j < σ.length → σ2.get? j = σ.get? j := by
              intro j hj
              have h1 := base.2 j (by simp; omega) (by omega)
              rw [h1, get?_append_lt σ _ j hj]
            have hσ' : σ' = σ2 := by
              cases v1 <;> simp [hb] at h <;> exact h.2.symm
            subst hσ'
            exact ⟨hlenσ, hag⟩
          | err e1 σ2 => simp [hb] at h
          | panic => simp [hb] at h
          | timeout => simp [hb] at h
        · simp [hlen] at h
      | integer k => simp at h
      | string s1 => simp at h
      | bool b => simp at h
      | null => simp at h
      | returnV o => simp at h
    · -- progF
      intro σ i ss v σ' h
      simp only [evalAll, evalStep] at h
      cases ss with
      | nil =>
        simp at h
        obtain ⟨hv, hσ⟩ := h
        subst hσ
        exact rfll
      | cons s rest =>
        cases hs : (evalAll n).stmtF σ i s with
        | ok v1 σ1 =>
          simp only [hs] at h
          have base := ihS σ i s v1 σ1 hs
          cases v1 with
          | returnV w => simp at h; exact h.2 ▸ base
          | integer k =>
            cases rest with
            | nil => simp at h; exact h.2 ▸ base
            | cons s2 rest2 => exact tr base (ihP σ1 i _ v σ' h)
          | string s1 =>
            cases rest with
            | nil => simp at h; exact h.2 ▸ base
            | cons s2 rest2 => exact tr base (ihP σ1 i _ v σ' h)
          | bool b =>
            cases rest with
            | nil => simp at h; exact h.2 ▸ base
            | cons s2 rest2 => exact tr base (ihP σ1 i _ v σ' h)
          | null =>
            cases rest with
            | nil => simp at h; exact h.2 ▸ base
            | cons s2 rest2 => exact tr base (ihP σ1 i _ v σ' h)
          | function ps body env =>
            cases rest with
            | nil => simp at h; exact h.2 ▸ base
            | cons s2 rest2 => exact tr base (ihP σ1 i _ v σ' h)
        | err e1 σ1 => simp [hs] at h
        | panic => simp [hs] at h
        | timeout => simp [hs] at h

/-! ## Lexer simulation

`next_token` depends only on the unread suffix of the input: on
well-formed lexer states it computes exactly `lexStep` of the suffix. -/

theorem dropHeadD : ∀ (xs : List Nat) (k : Nat),
    (xs.drop k).headD 0 = if xs.length ≤ k then 0 else xs.getD k 0
  | [], k => by simp
  | x :: xs, 0 => by simp
  | x :: xs, k + 1 => by simpa using dropHeadD xs k

theorem take_takeWhile_length : ∀ (p : Nat → Bool) (xs : List Nat),
    xs.take (xs.takeWhile p).length = xs.takeWhile p
  | p, [] => rfl
  | p, x :: xs => by
    cases hp : p x with
    | true => simpa [List.takeWhile_cons, hp] using take_takeWhile_length p xs
    | false => simp [List.takeWhile_cons, hp]

theorem readCharL_wf (l : Lexer) : (readCharL l).wf := by
  refine ⟨rfl, ?_⟩
  show (if l.input.length ≤ l.readPosition then 0 else l.input.getD l.readPosition 0) =
    (l.input.drop l.readPosition).headD 0
  rw [dropHeadD]

theorem readCharL_input (l : Lexer) : (readCharL l).input = l.input := rfl

theorem readCharL_suffix (l : Lexer) (hw : l.wf) :
    (readCharL l).suffix = l.suffix.tail := by
  show l.input.drop l.readPosition = (l.input.drop l.position).tail
  rw [hw.1, List.tail_drop]

theorem readCharL_position (l : Lexer) (hw : l.wf) :
    (readCharL l).position = l.position + 1 := hw.1

theorem peekCharL_eq (l : Lexer) (hw : l.wf) :
    peekCharL l = l.suffix.tail.headD 0 := by
  show (if l.input.length ≤ l.readPosition then 0 else l.input.getD l.readPosition 0) =
    (l.input.drop l.position).tail.headD 0
  rw [List.tail_drop, ← hw.1, dropHeadD]

theorem suffix_fuel_cond (l : Lexer) :
    l.suffix.length < l.input.length + 1 - l.position ∨ l.suffix = [] := by
  by_cases hp : l.position ≤ l.input.length
  · left
    show (l.input.drop l.position).length < _
    rw [List.length_drop]
    omega
  · right
    show l.input.drop l.position = []
    exact List.drop_eq_nil_of_le (by omega)

theorem skipWsAux_sim : ∀ (fuel : Nat) (l : Lexer), l.wf →
    (l.suffix.length < fuel ∨ l.suffix = []) →
    (skipWsAux fuel l).wf ∧ (skipWsAux fuel l).input = l.input ∧
      (skipWsAux fuel l).suffix = l.suffix.dropWhile isWsB := by
  intro fuel
  induction fuel with
  | zero =>
    intro l hw hc
    have hnil : l.suffix = [] := by
      rcases hc with h | h
      · omega
      · exact h
    refine ⟨hw, rfl, ?_⟩
    show l.suffix = l.suffix.dropWhile isWsB
    rw [hnil]
    rfl
  | succ fuel ih =>
    intro l hw hc
    by_cases hws : isWsB l.ch = true
    · cases hsx : l.suffix with
      | nil =>
        have hch0 : l.ch = 0 := by rw [hw.2, hsx]; rfl
        rw [hch0] at hws
        exact absurd hws (by decide)
      | cons c s' =>
        have hcch : l.ch = c := by rw [hw.2, hsx]; rfl
        have hpc : isWsB c = true := hcch ▸ hws
        have h1 := readCharL_wf l
        have h2 : (readCharL l).suffix = s' := by rw [readCharL_suffix l hw, hsx]; rfl
        have hrec := ih (readCharL l) h1 (by
          rw [h2]
          rcases hc with h | h
          · left
            rw [hsx] at h
            simp at h
            omega
          · rw [h] at hsx
            cases hsx)
        have hstep : skipWsAux (fuel + 1) l = skipWsAux fuel (readCharL l) := by
          simp [skipWsAux, hws]
        rw [hstep]
        refine ⟨hrec.1, hrec.2.1.trans (readCharL_input l), ?_⟩
        rw [hrec.2.2, h2]
        simp [hsx, List.dropWhile_cons, hpc]
    · have hstep : skipWsAux (fuel + 1) l = l := by
        simp [skipWsAux, hws]
      rw [hstep]
      refine ⟨hw, rfl, ?_⟩
      cases hsx : l.suffix with
      | nil => rfl
      | cons c s' =>
        have hcch : l.ch = c := by rw [hw.2, hsx]; rfl
        have hpc : isWsB c = false := by
          rw [← hcch]
          simpa using hws
        simp [List.dropWhile_cons, hpc]

theorem skipWhitespaceL_sim (l : Lexer) (hw : l.wf) :
    (skipWhitespaceL l).wf ∧ (skipWhitespaceL l).input = l.input ∧
      (skipWhitespaceL l).suffix = l.suffix.dropWhile isWsB :=
  skipWsAux_sim _ l hw (suffix_fuel_cond l)

theorem readRunAux_sim (pred : Nat → Bool) (hp0 : pred 0 = false) :
    ∀ (fuel : Nat) (l : Lexer), l.wf →
    (l.suffix.length < fuel ∨ l.suffix = []) →
    (readRunAux pred fuel l).wf ∧ (readRunAux pred fuel l).input = l.input ∧
      (readRunAux pred fuel l).position = l.position + (l.suffix.takeWhile pred).length ∧
      (readRunAux pred fuel l).suffix = l.suffix.dropWhile pred := by
  intro fuel
  induction fuel with
  | zero =>
    intro l hw hc
    have hnil : l.suffix = [] := by
      rcases hc with h | h
      · omega
      · exact h
    refine ⟨hw, rfl, ?_, ?_⟩
    · show l.position = l.position + (l.suffix.takeWhile pred).length
      rw [hnil]
      rfl
    · show l.suffix = l.suffix.dropWhile pred
      rw [hnil]
      rfl
  | succ fuel ih =>
    intro l hw hc
    by_cases hpr : pred l.ch = true
    · cases hsx : l.suffix with
      | nil =>
        have hch0 : l.ch = 0 := by rw [hw.2, hsx]; rfl
        rw [hch0, hp0] at hpr
        simp at hpr
      | cons c s' =>
        have hcch : l.ch = c := by rw [hw.2, hsx]; rfl
        have hpc : pred c = true := hcch ▸ hpr
        have h1 := readCharL_wf l
        have h2 : (readCharL l).suffix = s' := by rw [readCharL_suffix l hw, hsx]; rfl
        have hrec := ih (readCharL l) h1 (by
          rw [h2]
          rcases hc with h | h
          · left
            rw [hsx] at h
            simp at h
            omega
          · rw [h] at hsx
            cases hsx)
        have hstep : readRunAux pred (fuel + 1) l = readRunAux pred fuel (readCharL l) := by
          simp [readRunAux, hpr]
        rw [hstep]
        refine ⟨hrec.1, hrec.2.1.trans (readCharL_input l), ?_, ?_⟩
        · rw [hrec.2.2.1, h2, readCharL_position l hw]
          simp [List.takeWhile_cons, hpc]
          omega
        · rw [hrec.2.2.2, h2]
          simp [List.dropWhile_cons, hpc]
    · have hstep : readRunAux pred (fuel + 1) l = l := by
        simp [readRunAux, hpr]
      rw [hstep]
      cases hsx : l.suffix with
      | nil =>
        refine ⟨hw, rfl, ?_, ?_⟩ <;> simp
      | cons c s' =>
        have hcch : l.ch = c := by rw [hw.2, hsx]; rfl
        have hpc : pred c = false := by
          rw [← hcch]
          simpa using hpr
        refine ⟨hw, rfl, ?_, ?_⟩
        · simp [List.takeWhile_cons, hpc]
        · simp [List.dropWhile_cons, hpc]

theorem isLetterB_zero : isLetterB 0 = false := rfl

theorem isDigitB_zero : isDigitB 0 = false := rfl

theorem readIdentifierL_sim (l : Lexer) (hw : l.wf) :
    (readIdentifierL l).1 = l.suffix.takeWhile isLetterB ∧
      (readIdentifierL l).2.wf ∧ (readIdentifierL l).2.input = l.input ∧
      (readIdentifierL l).2.suffix = l.suffix.dropWhile isLetterB := by
  have h := readRunAux_sim isLetterB isLetterB_zero _ l hw (suffix_fuel_cond l)
  obtain ⟨hwf, hin, hpos, hsuf⟩ := h
  refine ⟨?_, hwf, hin, hsuf⟩
  show ((readRunAux isLetterB (l.input.length + 1 - l.position) l).input.drop l.position).take
    ((readRunAux isLetterB (l.input.length + 1 - l.position) l).position - l.position) =
    l.suffix.takeWhile isLetterB
  rw [hin, hpos]
  simp only [Nat.add_sub_cancel_left]
  exact take_takeWhile_length isLetterB l.suffix

theorem readIntL_sim (l : Lexer) (hw : l.wf) :
    (parseI64 (l.suffix.takeWhile isDigitB) = none → readIntL l = none) ∧
    (∀ n, parseI64 (l.suffix.takeWhile isDigitB) = some n →
      ∃ l2, readIntL l = some (n, l2) ∧ l2.wf ∧ l2.input = l.input ∧
        l2.suffix = l.suffix.dropWhile isDigitB) := by
  have h := readRunAux_sim isDigitB isDigitB_zero _ l hw (suffix_fuel_cond l)
  obtain ⟨hwf, hin, hpos, hsuf⟩ := h
  have hslice : ((readRunAux isDigitB (l.input.length + 1 - l.position) l).input.drop
      l.position).take
      ((readRunAux isDigitB (l.input.length + 1 - l.position) l).position - l.position) =
      l.suffix.takeWhile isDigitB := by
    rw [hin, hpos]
    simp only [Nat.add_sub_cancel_left]
    exact take_takeWhile_length isDigitB l.suffix
  constructor
  · intro hn
    unfold readIntL
    dsimp only
    rw [hslice, hn]
  · intro n hn
    refine ⟨readRunAux isDigitB (l.input.length + 1 - l.position) l, ?_, hwf, hin, hsuf⟩
    unfold readIntL
    dsimp only
    rw [hslice, hn]

theorem readStringAux_sim : ∀ (fuel : Nat) (l : Lexer), l.wf →
    l.suffix.length < fuel →
    (readStringAux fuel l).wf ∧ (readStringAux fuel l).input = l.input ∧
      (readStringAux fuel l).position =
        l.position + 1 + (l.suffix.tail.takeWhile (fun b => !stopStrB b)).length ∧
      (readStringAux fuel l).suffix =
        l.suffix.tail.dropWhile (fun b => !stopStrB b) := by
  intro fuel
  induction fuel with
  | zero =>
    intro l hw hc
    omega
  | succ fuel ih =>
    intro l hw hc
    have h1 := readCharL_wf l
    have h2 := readCharL_suffix l hw
    have h3 := readCharL_position l hw
    have hch1 : (readCharL l).ch = l.suffix.tail.headD 0 := by rw [h1.2, h2]
    by_cases hstop : (readCharL l).ch = 34 ∨ (readCharL l).ch = 0
    · have hstep : readStringAux (fuel + 1) l = readCharL l := by
        simp [readStringAux, hstop]
      rw [hstep]
      cases hsx : l.suffix.tail with
      | nil =>
        refine ⟨h1, rfl, ?_, ?_⟩
        · rw [h3]
          simp
        · rw [h2, hsx]
          rfl
      | cons c s' =>
        have hcc : (readCharL l).ch = c := by rw [hch1, hsx]; rfl
        have hc34 : stopStrB c = true := by
          rcases hstop with h | h <;> rw [hcc] at h <;> simp [stopStrB, h]
        refine ⟨h1, rfl, ?_, ?_⟩
        · rw [h3]
          simp [List.takeWhile_cons, hc34]
        · rw [h2, hsx]
          simp [List.dropWhile_cons, hc34]
    · have hstep : readStringAux (fuel + 1) l = readStringAux fuel (readCharL l) := by
        simp [readStringAux, hstop]
      rw [hstep]
      push_neg at hstop
      cases hsx : l.suffix.tail with
      | nil =>
        rw [hsx] at hch1
        simp at hch1
        exact absurd hch1 hstop.2
      | cons c s' =>
        have hcc : (readCharL l).ch = c := by rw [hch1, hsx]; rfl
        have hc34 : c ≠ 34 := hcc ▸ hstop.1
        have hc0 : c ≠ 0 := hcc ▸ hstop.2
        have hcstop : stopStrB c = false := by simp [stopStrB, hc34, hc0]
        have hsuffne : l.suffix ≠ [] := by
          intro hnil
          rw [hnil] at hsx
          cases hsx
        have hlen1 : (readCharL l).suffix.length < fuel := by
          rw [h2]
          have hlen2 : l.suffix.length = l.suffix.tail.length + 1 := by
            cases hsy : l.suffix with
            | nil => exact absurd hsy hsuffne
            | cons x xs => simp
          omega
        have hrec := ih (readCharL l) h1 hlen1
        refine ⟨hrec.1, hrec.2.1.trans (readCharL_input l), ?_, ?_⟩
        · rw [hrec.2.2.1, h2, hsx, h3]
          simp [List.takeWhile_cons, hcstop]
          omega
        · rw [hrec.2.2.2, h2, hsx]
          simp [List.dropWhile_cons, hcstop]

theorem readStringL_sim (l : Lexer) (hw : l.wf) (hne : l.suffix ≠ []) :
    (readStringL l).1 =
      .StringLiteral (l.suffix.tail.takeWhile (fun b => !stopStrB b)) ∧
    (readStringL l).2.wf ∧
    (readStringL l).2.suffix = l.suffix.tail.dropWhile (fun b => !stopStrB b) := by
  have hpos : l.position < l.input.length := by
    by_contra hcon
    exact hne (List.drop_eq_nil_of_le (by omega))
  have hlen : l.suffix.length < l.input.length + 2 - l.position := by
    show (l.input.drop l.position).length < _
    rw [List.length_drop]
    omega
  have h := readStringAux_sim (l.input.length + 2 - l.position) l hw hlen
  obtain ⟨hwf, hin, hps, hsuf⟩ := h
  refine ⟨?_, hwf, hsuf⟩
  show Token.StringLiteral
      (((readStringAux (l.input.length + 2 - l.position) l).input.drop (l.position + 1)).take
        ((readStringAux (l.input.length + 2 - l.position) l).position - (l.position + 1))) = _
  rw [hin, hps]
  have hdrop : l.input.drop (l.position + 1) = l.suffix.tail := by
    show l.input.drop (l.position + 1) = (l.input.drop l.position).tail
    rw [List.tail_drop]
  rw [hdrop]
  have harith : l.position + 1 + (l.suffix.tail.takeWhile (fun b => !stopStrB b)).length -
      (l.position + 1) = (l.suffix.tail.takeWhile (fun b => !stopStrB b)).length := by
    omega
  rw [harith, take_takeWhile_length]

theorem nextTokenCore_sim (l1 : Lexer) (hw1 : l1.wf) :
    match lexStepCore l1.suffix with
    | some (t, s') => ∃ l', nextTokenCore l1 = some (t, l') ∧ l'.wf ∧ l'.suffix = s'
    | none => nextTokenCore l1 = none := by
  have hrcw := readCharL_wf l1
  have hrcs := readCharL_suffix l1 hw1
  have hrc2w := readCharL_wf (readCharL l1)
  have hrc2s : (readCharL (readCharL l1)).suffix = l1.suffix.tail.tail := by
    rw [readCharL_suffix _ hrcw, hrcs]
  cases hsx : l1.suffix with
  | nil =>
    have hch : l1.ch = 0 := by rw [hw1.2, hsx]; rfl
    have hrcs0 : (readCharL l1).suffix = [] := by simp [hrcs, hsx]
    show ∃ l', nextTokenCore l1 = some (Token.EOF, l') ∧ l'.wf ∧ l'.suffix = []
    exact ⟨readCharL l1, by simp [nextTokenCore, hch], hrcw, hrcs0⟩
  | cons c rest =>
    have hch : l1.ch = c := by rw [hw1.2, hsx]; rfl
    have hrcs1 : (readCharL l1).suffix = rest := by simp [hrcs, hsx]
    have hrc2s1 : (readCharL (readCharL l1)).suffix = rest.tail := by simp [hrc2s, hsx]
    have hpk : peekCharL l1 = rest.headD 0 := by simp [peekCharL_eq l1 hw1, hsx]
    by_cases hc61 : c = 61
    · subst hc61
      cases rest with
      | nil =>
        show ∃ l', nextTokenCore l1 = some (Token.Assign, l') ∧ l'.wf ∧ l'.suffix = []
        exact ⟨readCharL l1, by simp [nextTokenCore, hch, hpk], hrcw, hrcs1⟩
      | cons d rest2 =>
        by_cases hd : d = 61
        · subst hd
          show ∃ l', nextTokenCore l1 = some (Token.Eq, l') ∧ l'.wf ∧ l'.suffix = rest2
          exact ⟨readCharL (readCharL l1),
            by simp [nextTokenCore, hch, hpk], hrc2w, by simp [hrc2s1]⟩
        · rw [show lexStepCore (61 :: d :: rest2) = some (.Assign, d :: rest2) by
            simp [lexStepCore, hd]]
          exact ⟨readCharL l1, by simp [nextTokenCore, hch, hpk, hd], hrcw, hrcs1⟩
    · by_cases hc43 : c = 43
      · subst hc43
        show ∃ l', nextTokenCore l1 = some (Token.Plus, l') ∧ l'.wf ∧ l'.suffix = rest
        exact ⟨readCharL l1, by simp [nextTokenCore, hch], hrcw, hrcs1⟩
      · by_cases hc45 : c = 45
        · subst hc45
          show ∃ l', nextTokenCore l1 = some (Token.Minus, l') ∧ l'.wf ∧ l'.suffix = rest
          exact ⟨readCharL l1, by simp [nextTokenCore, hch], hrcw, hrcs1⟩
        · by_cases hc33 : c = 33
          · subst hc33
            cases rest with
            | nil =>
              show ∃ l', nextTokenCore l1 = some (Token.Bang, l') ∧ l'.wf ∧ l'.suffix = []
              exact ⟨readCharL l1, by simp [nextTokenCore, hch, hpk], hrcw, hrcs1⟩
            | cons d rest2 =>
              by_cases hd : d = 61
              · subst hd
                show ∃ l', nextTokenCore l1 = some (Token.NotEq, l') ∧ l'.wf ∧
                  l'.suffix = rest2
                exact ⟨readCharL (readCharL l1),
                  by simp [nextTokenCore, hch, hpk], hrc2w, by simp [hrc2s1]⟩
              · rw [show lexStepCore (33 :: d :: rest2) = some (.Bang, d :: rest2) by
                  simp [lexStepCore, hd]]
                exact ⟨readCharL l1, by simp [nextTokenCore, hch, hpk, hd], hrcw, hrcs1⟩
          · by_cases hc47 : c = 47
            · subst hc47
              show ∃ l', nextTokenCore l1 = some (Token.Slash, l') ∧ l'.wf ∧
                l'.suffix = rest
              exact ⟨readCharL l1, by simp [nextTokenCore, hch], hrcw, hrcs1⟩
            · by_cases hc42 : c = 42
              · subst hc42
                show ∃ l', nextTokenCore l1 = some (Token.Asterisk, l') ∧ l'.wf ∧
                  l'.suffix = rest
                exact ⟨readCharL l1, by simp [nextTokenCore, hch], hrcw, hrcs1⟩
              · by_cases hc60 : c = 60
                · subst hc60
                  show ∃ l', nextTokenCore l1 = some (Token.LT, l') ∧ l'.wf ∧
                    l'.suffix = rest
                  exact ⟨readCharL l1, by simp [nextTokenCore, hch], hrcw, hrcs1⟩
                · by_cases hc62 : c = 62
                  · subst hc62
                    show ∃ l', nextTokenCore l1 = some (Token.GT, l') ∧ l'.wf ∧
                      l'.suffix = rest
                    exact ⟨readCharL l1, by simp [nextTokenCore, hch], hrcw, hrcs1⟩
                  · by_cases hc59 : c = 59
                    · subst hc59
                      show ∃ l', nextTokenCore l1 = some (Token.SemiColon, l') ∧ l'.wf ∧
                        l'.suffix = rest
                      exact ⟨readCharL l1, by simp [nextTokenCore, hch], hrcw, hrcs1⟩
                    · by_cases hc44 : c = 44
                      · subst hc44
                        show ∃ l', nextTokenCore l1 = some (Token.Comma, l') ∧ l'.wf ∧
                          l'.suffix = rest
                        exact ⟨readCharL l1, by simp [nextTokenCore, hch], hrcw, hrcs1⟩
                      · by_cases hc40 : c = 40
                        · subst hc40
                          show ∃ l', nextTokenCore l1 = some (Token.LParen, l') ∧ l'.wf ∧
                            l'.suffix = rest
                          exact ⟨readCharL l1, by simp [nextTokenCore, hch], hrcw, hrcs1⟩
                        · by_cases hc41 : c = 41
                          · subst hc41
                            show ∃ l', nextTokenCore l1 = some (Token.RParen, l') ∧
                              l'.wf ∧ l'.suffix = rest
                            exact ⟨readCharL l1, by simp [nextTokenCore, hch], hrcw, hrcs1⟩
                          · by_cases hc123 : c = 123
                            · subst hc123
                              show ∃ l', nextTokenCore l1 = some (Token.LBrace, l') ∧
                                l'.wf ∧ l'.suffix = rest
                              exact ⟨readCharL l1, by simp [nextTokenCore, hch],
                                hrcw, hrcs1⟩
                            · by_cases hc125 : c = 125
                              · subst hc125
                                show ∃ l', nextTokenCore l1 = some (Token.RBrace, l') ∧
                                  l'.wf ∧ l'.suffix = rest
                                exact ⟨readCharL l1, by simp [nextTokenCore, hch],
                                  hrcw, hrcs1⟩
                              · by_cases hc34 : c = 34
                                · subst hc34
                                  have hne : l1.suffix ≠ [] := by rw [hsx]; simp
                                  obtain ⟨hst1, hst2, hst3⟩ := readStringL_sim l1 hw1 hne
                                  rw [hsx] at hst1 hst3
                                  simp only [List.tail_cons] at hst1 hst3
                                  show ∃ l', nextTokenCore l1 =
                                    some (Token.StringLiteral
                                      (rest.takeWhile (fun b => !stopStrB b)), l') ∧
                                    l'.wf ∧ l'.suffix =
                                      (rest.dropWhile (fun b => !stopStrB b)).tail
                                  refine ⟨readCharL (readStringL l1).2, ?_,
                                    readCharL_wf _, ?_⟩
                                  · simp [nextTokenCore, hch, hst1]
                                  · rw [readCharL_suffix _ hst2, hst3]
                                · by_cases hc0 : c = 0
                                  · subst hc0
                                    show ∃ l', nextTokenCore l1 = some (Token.EOF, l') ∧
                                      l'.wf ∧ l'.suffix = rest
                                    exact ⟨readCharL l1, by simp [nextTokenCore, hch],
                                      hrcw, hrcs1⟩
                                  · by_cases hlet : isLetterB c = true
                                    · obtain ⟨hid1, hid2, hid3, hid4⟩ :=
                                        readIdentifierL_sim l1 hw1
                                      rw [hsx] at hid1 hid4
                                      rw [show lexStepCore (c :: rest) =
                                          some (keywordOrIdent
                                            ((c :: rest).takeWhile isLetterB),
                                            (c :: rest).dropWhile isLetterB) by
                                        simp [lexStepCore, hc61, hc43, hc45, hc33, hc47,
                                          hc42, hc60, hc62, hc59, hc44, hc40, hc41,
                                          hc123, hc125, hc34, hc0, hlet]]
                                      refine ⟨(readIdentifierL l1).2, ?_, hid2, hid4⟩
                                      simp [nextTokenCore, hch, hc61, hc43, hc45, hc33,
                                        hc47, hc42, hc60, hc62, hc59, hc44, hc40, hc41,
                                        hc123, hc125, hc34, hc0, hlet, hid1]
                                    · by_cases hdig : isDigitB c = true
                                      · obtain ⟨hnone, hsome⟩ := readIntL_sim l1 hw1
                                        rw [hsx] at hnone hsome
                                        cases hp : parseI64
                                            ((c :: rest).takeWhile isDigitB) with
                                        | none =>
                                          have hp2 := hp
                                          simp [hdig] at hp2
                                          rw [show lexStepCore (c :: rest) = none by
                                            simp [lexStepCore, hc61, hc43, hc45, hc33,
                                              hc47, hc42, hc60, hc62, hc59, hc44, hc40,
                                              hc41, hc123, hc125, hc34, hc0, hlet, hdig,
                                              hp2]]
                                          simp [nextTokenCore, hch, hc61, hc43, hc45,
                                            hc33, hc47, hc42, hc60, hc62, hc59, hc44,
                                            hc40, hc41, hc123, hc125, hc34, hc0, hlet,
                                            hdig, hnone hp]
                                        | some n =>
                                          obtain ⟨l2, hq1, hq2, hq3, hq4⟩ := hsome n hp
                                          have hp2 := hp
                                          simp [hdig] at hp2
                                          rw [show lexStepCore (c :: rest) =
                                              some (.IntLiteral n,
                                                (c :: rest).dropWhile isDigitB) by
                                            simp [lexStepCore, hc61, hc43, hc45, hc33,
                                              hc47, hc42, hc60, hc62, hc59, hc44, hc40,
                                              hc41, hc123, hc125, hc34, hc0, hlet, hdig,
                                              hp2]]
                                          refine ⟨l2, ?_, hq2, hq4⟩
                                          simp [nextTokenCore, hch, hc61, hc43, hc45,
                                            hc33, hc47, hc42, hc60, hc62, hc59, hc44,
                                            hc40, hc41, hc123, hc125, hc34, hc0, hlet,
                                            hdig, hq1]
                                      · rw [show lexStepCore (c :: rest) =
                                            some (.Illegal, rest) by
                                          simp [lexStepCore, hc61, hc43, hc45, hc33,
                                            hc47, hc42, hc60, hc62, hc59, hc44, hc40,
                                            hc41, hc123, hc125, hc34, hc0, hlet, hdig]]
                                        exact ⟨readCharL l1,
                                          by simp [nextTokenCore, hch, hc61, hc43, hc45,
                                            hc33, hc47, hc42, hc60, hc62, hc59, hc44,
                                            hc40, hc41, hc123, hc125, hc34, hc0, hlet,
                                            hdig], hrcw, hrcs1⟩

theorem nextToken_sim (l : Lexer) (hw : l.wf) :
    match lexStep l.suffix with
    | some (t, s') => ∃ l', nextToken l = some (t, l') ∧ l'.wf ∧ l'.suffix = s'
    | none => nextToken l = none := by
  obtain ⟨hw1, hin1, hsuf1⟩ := skipWhitespaceL_sim l hw
  have h := nextTokenCore_sim (skipWhitespaceL l) hw1
  rw [hsuf1] at h
  exact h

/-- On well-formed lexer states, collecting tokens is a function of the
suffix. -/
theorem lexAllAux_sim : ∀ (fuel : Nat) (l : Lexer), l.wf →
    lexAllAux fuel l = listLexAllAux fuel l.suffix := by
  intro fuel
  induction fuel with
  | zero => intro l hw; rfl
  | succ fuel ih =>
    intro l hw
    have h := nextToken_sim l hw
    cases hls : lexStep l.suffix with
    | none =>
      rw [hls] at h
      show (match nextToken l with
        | some (.EOF, _) => some []
        | some (t, l') => (lexAllAux fuel l').map (t :: ·)
        | none => none) =
        (match lexStep l.suffix with
        | some (.EOF, _) => some []
        | some (t, s') => (listLexAllAux fuel s').map (t :: ·)
        | none => none)
      rw [h, hls]
    | some ts =>
      obtain ⟨t, s'⟩ := ts
      rw [hls] at h
      obtain ⟨l', hnt, hw', hs'⟩ := h
      show (match nextToken l with
        | some (.EOF, _) => some []
        | some (t, l') => (lexAllAux fuel l').map (t :: ·)
        | none => none) =
        (match lexStep l.suffix with
        | some (.EOF, _) => some []
        | some (t, s') => (listLexAllAux fuel s').map (t :: ·)
        | none => none)
      rw [hnt, hls]
      have hmain : lexAllAux fuel l' = listLexAllAux fuel s' := hs' ▸ ih l' hw'
      cases t <;> simp [hmain]

/-! ## Lexing the printer output (C7): single tokens -/

theorem isLetterB_iff (c : Nat) :
    isLetterB c = true ↔ ((97 ≤ c ∧ c ≤ 122) ∨ (65 ≤ c ∧ c ≤ 90) ∨ c = 95) := by
  unfold isLetterB
  split <;> simp_all

theorem isDigitB_iff (c : Nat) : isDigitB c = true ↔ (48 ≤ c ∧ c ≤ 57) := by
  unfold isDigitB
  split <;> simp_all

theorem isWsB_iff (c : Nat) : isWsB c = true ↔ (c = 32 ∨ c = 9 ∨ c = 10 ∨ c = 13) := by
  unfold isWsB
  split <;> simp_all

theorem letter_not_ws (c : Nat) (h : isLetterB c = true) : isWsB c = false := by
  cases hws : isWsB c with
  | false => rfl
  | true =>
    exfalso
    rw [isWsB_iff] at hws
    rw [isLetterB_iff] at h
    omega

theorem digit_not_ws (c : Nat) (h : isDigitB c = true) : isWsB c = false := by
  cases hws : isWsB c with
  | false => rfl
  | true =>
    exfalso
    rw [isWsB_iff] at hws
    rw [isDigitB_iff] at h
    omega

theorem natDigitsAux_all (fuel : Nat) : ∀ n, (natDigitsAux fuel n).all isDigitB = true := by
  induction fuel with
  | zero => intro n; rfl
  | succ fuel ih =>
    intro n
    by_cases h : n = 0
    · simp [natDigitsAux, h]
    · have hd : isDigitB (48 + n % 10) = true := by
        rw [isDigitB_iff]
        omega
      simp [natDigitsAux, h, ih (n / 10), hd]

theorem digitsVal_append (ds : List Nat) (d : Nat) :
    digitsVal (ds ++ [d]) = 10 * digitsVal ds + (d - 48) := by
  simp [digitsVal, List.foldl_append]

theorem natDigitsAux_val : ∀ (fuel n : Nat), n ≤ fuel →
    digitsVal (natDigitsAux fuel n) = n := by
  intro fuel
  induction fuel with
  | zero =>
    intro n h
    have h0 : n = 0 := by omega
    subst h0
    rfl
  | succ fuel ih =>
    intro n h
    by_cases h0 : n = 0
    · simp [natDigitsAux, h0, digitsVal]
    · have hlt : n / 10 < n := Nat.div_lt_self (by omega) (by omega)
      have hih := ih (n / 10) (by omega)
      rw [show natDigitsAux (fuel + 1) n = natDigitsAux fuel (n / 10) ++ [48 + n % 10] by
        simp [natDigitsAux, h0]]
      rw [digitsVal_append, hih]
      omega

theorem natDigits_ne (n : Nat) : natDigits n ≠ [] := by
  by_cases h : n = 0
  · simp [natDigits, h]
  · rw [show natDigits n = natDigitsAux n (n / 10) ++ [48 + n % 10] by
      simp [natDigits, natDigitsAux, h]]
    simp

theorem natDigits_all (n : Nat) : (natDigits n).all isDigitB = true := by
  by_cases h : n = 0
  · subst h
    rfl
  · rw [show natDigits n = natDigitsAux (n + 1) n by simp [natDigits, h]]
    exact natDigitsAux_all (n + 1) n

theorem parseI64_natDigits (n : Nat) (h : n ≤ i64Max) :
    parseI64 (natDigits n) = some (Int.ofNat n) := by
  have hv : digitsVal (natDigits n) = n := by
    by_cases h0 : n = 0
    · subst h0
      rfl
    · rw [show natDigits n = natDigitsAux (n + 1) n by simp [natDigits, h0]]
      exact natDigitsAux_val (n + 1) n (by omega)
  unfold parseI64
  rw [if_neg (natDigits_ne n), hv, if_pos h]

theorem takeWhile_all_append (p : Nat → Bool) :
    ∀ (nm rest : List Nat), nm.all p = true → p (rest.headD 0) = false →
      (nm ++ rest).takeWhile p = nm ∧ (nm ++ rest).dropWhile p = rest := by
  intro nm
  induction nm with
  | nil =>
    intro rest _ hb
    cases rest with
    | nil => exact ⟨rfl, rfl⟩
    | cons b r =>
      simp only [List.headD_cons] at hb
      constructor
      · simp [List.takeWhile_cons, hb]
      · simp [List.dropWhile_cons, hb]
  | cons a nm ih =>
    intro rest hall hb
    rw [List.all_cons, Bool.and_eq_true] at hall
    obtain ⟨h1, h2⟩ := ih rest hall.2 hb
    constructor
    · simp [List.takeWhile_cons, hall.1, h1]
    · simp [List.dropWhile_cons, hall.1, h2]

theorem keywordOrIdent_valid (nm : Name) (h : validIdent nm = true) :
    keywordOrIdent nm = .Identifier nm := by
  have hmem : nm ∉ keywordList := by
    unfold validIdent at h
    simp at h
    exact h.2
  unfold keywordList at hmem
  simp at hmem
  obtain ⟨h1, h2, h3, h4, h5, h6, h7⟩ := hmem
  unfold keywordOrIdent
  rw [if_neg h1, if_neg h2, if_neg h3, if_neg h4, if_neg h5, if_neg h6, if_neg h7]

theorem lexStep_cons (c : Nat) (s : List Nat) (h : isWsB c = false) :
    lexStep (c :: s) = lexStepCore (c :: s) := by
  unfold lexStep
  rw [List.dropWhile_cons, if_neg (by simp [h])]

theorem lexStepCore_letter (c : Nat) (s : List Nat) (hc : isLetterB c = true) :
    lexStepCore (c :: s) =
      some (keywordOrIdent ((c :: s).takeWhile isLetterB),
        (c :: s).dropWhile isLetterB) := by
  have hb := (isLetterB_iff c).1 hc
  have h61 : ¬c = 61 := by omega
  have h43 : ¬c = 43 := by omega
  have h45 : ¬c = 45 := by omega
  have h33 : ¬c = 33 := by omega
  have h47 : ¬c = 47 := by omega
  have h42 : ¬c = 42 := by omega
  have h60 : ¬c = 60 := by omega
  have h62 : ¬c = 62 := by omega
  have h59 : ¬c = 59 := by omega
  have h44 : ¬c = 44 := by omega
  have h40 : ¬c = 40 := by omega
  have h41 : ¬c = 41 := by omega
  have h123 : ¬c = 123 := by omega
  have h125 : ¬c = 125 := by omega
  have h34 : ¬c = 34 := by omega
  have h0 : ¬c = 0 := by omega
  simp [lexStepCore, h61, h43, h45, h33, h47, h42, h60, h62, h59, h44, h40, h41,
    h123, h125, h34, h0, hc]

theorem lexStepCore_digit (c : Nat) (s : List Nat) (n : Int) (hc : isDigitB c = true)
    (hp : parseI64 ((c :: s).takeWhile isDigitB) = some n) :
    lexStepCore (c :: s) = some (.IntLiteral n, (c :: s).dropWhile isDigitB) := by
  have hb := (isDigitB_iff c).1 hc
  have hlet : isLetterB c = false := by
    cases hl : isLetterB c with
    | false => rfl
    | true =>
      exfalso
      rw [isLetterB_iff] at hl
      omega
  have h61 : ¬c = 61 := by omega
  have h43 : ¬c = 43 := by omega
  have h45 : ¬c = 45 := by omega
  have h33 : ¬c = 33 := by omega
  have h47 : ¬c = 47 := by omega
  have h42 : ¬c = 42 := by omega
  have h60 : ¬c = 60 := by omega
  have h62 : ¬c = 62 := by omega
  have h59 : ¬c = 59 := by omega
  have h44 : ¬c = 44 := by omega
  have h40 : ¬c = 40 := by omega
  have h41 : ¬c = 41 := by omega
  have h123 : ¬c = 123 := by omega
  have h125 : ¬c = 125 := by omega
  have h34 : ¬c = 34 := by omega
  have h0 : ¬c = 0 := by omega
  have hp2 := hp
  simp [hc] at hp2
  simp [lexStepCore, h61, h43, h45, h33, h47, h42, h60, h62, h59, h44, h40, h41,
    h123, h125, h34, h0, hlet, hc, hp2]

theorem lexStep_ident (nm rest : List Nat) (h : validIdent nm = true)
    (hb : isLetterB (rest.headD 0) = false) :
    lexStep (nm ++ rest) = some (.Identifier nm, rest) := by
  have hv := h
  unfold validIdent at h
  rw [Bool.and_eq_true, Bool.and_eq_true] at h
  have hne : nm ≠ [] := of_decide_eq_true h.1.1
  have hall := h.1.2
  cases hnm : nm with
  | nil => exact absurd hnm hne
  | cons c nm2 =>
    rw [hnm] at hall hv
    rw [List.all_cons, Bool.and_eq_true] at hall
    have hc : isLetterB c = true := hall.1
    have hsplit := takeWhile_all_append isLetterB (c :: nm2) rest
      (by rw [List.all_cons, Bool.and_eq_true]; exact hall) hb
    rw [List.cons_append, lexStep_cons c (nm2 ++ rest) (letter_not_ws c hc),
      lexStepCore_letter c (nm2 ++ rest) hc, ← List.cons_append, hsplit.1, hsplit.2,
      keywordOrIdent_valid _ hv]

theorem lexStep_int (m : Nat) (rest : List Nat) (hm : m ≤ i64Max)
    (hb : isDigitB (rest.headD 0) = false) :
    lexStep (natDigits m ++ rest) = some (.IntLiteral (Int.ofNat m), rest) := by
  have hall := natDigits_all m
  have hne := natDigits_ne m
  have hparse := parseI64_natDigits m hm
  cases hd : natDigits m with
  | nil => exact absurd hd hne
  | cons c ds =>
    rw [hd] at hall hparse
    rw [List.all_cons, Bool.and_eq_true] at hall
    have hc : isDigitB c = true := hall.1
    have hsplit := takeWhile_all_append isDigitB (c :: ds) rest
      (by rw [List.all_cons, Bool.and_eq_true]; exact hall) hb
    rw [List.cons_append, lexStep_cons c (ds ++ rest) (digit_not_ws c hc),
      lexStepCore_digit c (ds ++ rest) (Int.ofNat m) hc
        (by rw [← List.cons_append, hsplit.1]; exact hparse),
      ← List.cons_append, hsplit.2]

theorem lexStep_true (rest : List Nat) (hb : isLetterB (rest.headD 0) = false) :
    lexStep (strBytes "true" ++ rest) = some (.True, rest) := by
  have hsplit := takeWhile_all_append isLetterB (strBytes "true") rest rfl hb
  show lexStep (116 :: ([114, 117, 101] ++ rest)) = _
  rw [lexStep_cons 116 ([114, 117, 101] ++ rest) rfl,
    lexStepCore_letter 116 ([114, 117, 101] ++ rest) rfl,
    show (116 : Nat) :: ([114, 117, 101] ++ rest) = strBytes "true" ++ rest from rfl,
    hsplit.1, hsplit.2, show keywordOrIdent (strBytes "true") = Token.True by decide]

theorem lexStep_false (rest : List Nat) (hb : isLetterB (rest.headD 0) = false) :
    lexStep (strBytes "false" ++ rest) = some (.False, rest) := by
  have hsplit := takeWhile_all_append isLetterB (strBytes "false") rest rfl hb
  show lexStep (102 :: ([97, 108, 115, 101] ++ rest)) = _
  rw [lexStep_cons 102 ([97, 108, 115, 101] ++ rest) rfl,
    lexStepCore_letter 102 ([97, 108, 115, 101] ++ rest) rfl,
    show (102 : Nat) :: ([97, 108, 115, 101] ++ rest) = strBytes "false" ++ rest from rfl,
    hsplit.1, hsplit.2, show keywordOrIdent (strBytes "false") = Token.False by decide]

theorem lexStep_lparen (s : List Nat) : lexStep (40 :: s) = some (.LParen, s) := rfl

theorem lexStep_rparen (s : List Nat) : lexStep (41 :: s) = some (.RParen, s) := rfl

theorem lexStep_comma (s : List Nat) : lexStep (44 :: s) = some (.Comma, s) := rfl

theorem lexStep_lt (s : List Nat) : lexStep (60 :: s) = some (.LT, s) := rfl

theorem lexStep_gt (s : List Nat) : lexStep (62 :: s) = some (.GT, s) := rfl

theorem lexStep_plus (s : List Nat) : lexStep (43 :: s) = some (.Plus, s) := rfl

theorem lexStep_minus (s : List Nat) : lexStep (45 :: s) = some (.Minus, s) := rfl

theorem lexStep_slash (s : List Nat) : lexStep (47 :: s) = some (.Slash, s) := rfl

theorem lexStep_asterisk (s : List Nat) : lexStep (42 :: s) = some (.Asterisk, s) := rfl

theorem lexStep_eq2 (s : List Nat) : lexStep (61 :: 61 :: s) = some (.Eq, s) := rfl

theorem lexStep_noteq (s : List Nat) : lexStep (33 :: 61 :: s) = some (.NotEq, s) := rfl

theorem lexStep_bang (s : List Nat) (hb : s.headD 0 ≠ 61) :
    lexStep (33 :: s) = some (.Bang, s) := by
  cases s with
  | nil => rfl
  | cons d s2 =>
    have hd : ¬d = 61 := by simpa using hb
    rw [lexStep_cons 33 (d :: s2) rfl]
    simp [lexStepCore, hd]

/-! ## Lexing the printer output (C7): whole expressions -/

theorem sizeE_pos : ∀ e, 1 ≤ sizeE e := by
  intro e
  cases e <;> simp [sizeE]

theorem sizeArgs_pos : ∀ as, 1 ≤ sizeArgs as := by
  intro as
  cases as <;> simp [sizeArgs]

theorem headD_append_left (l1 l2 : List Nat) (h : l1 ≠ []) :
    (l1 ++ l2).headD 0 = l1.headD 0 := by
  cases l1 with
  | nil => exact absurd rfl h
  | cons a l => rfl

theorem all_headD (p : Nat → Bool) (l : List Nat) (hall : l.all p = true)
    (hne : l ≠ []) : p (l.headD 0) = true := by
  cases l with
  | nil => exact absurd rfl hne
  | cons a l =>
    rw [List.all_cons, Bool.and_eq_true] at hall
    exact hall.1

theorem displayHeadAux : ∀ k e, sizeE e ≤ k → printableE e = true →
    displayExpr e ≠ [] ∧
      (isLetterB ((displayExpr e).headD 0) = true ∨
       isDigitB ((displayExpr e).headD 0) = true ∨ (displayExpr e).headD 0 = 40) := by
  intro k
  induction k with
  | zero =>
    intro e hs _
    exact absurd hs (by have := sizeE_pos e; omega)
  | succ k ih =>
    intro e hs hp
    cases e with
    | identifier nm =>
      unfold printableE validIdent at hp
      rw [Bool.and_eq_true, Bool.and_eq_true] at hp
      have hne : nm ≠ [] := of_decide_eq_true hp.1.1
      exact ⟨hne, Or.inl (all_headD _ _ hp.1.2 hne)⟩
    | integer n =>
      unfold printableE at hp
      rw [Bool.and_eq_true] at hp
      have h0 : (0 : Int) ≤ n := of_decide_eq_true hp.1
      have hd : displayExpr (.integer n) = natDigits n.natAbs := by
        show intToBytes n = _
        unfold intToBytes
        rw [if_neg (by omega)]
      rw [hd]
      exact ⟨natDigits_ne _,
        Or.inr (Or.inl (all_headD _ _ (natDigits_all _) (natDigits_ne _)))⟩
    | boolean b =>
      cases b
      · exact ⟨by decide, Or.inl (by decide)⟩
      · exact ⟨by decide, Or.inl (by decide)⟩
    | prefixE op r => exact ⟨by simp [displayExpr], Or.inr (Or.inr rfl)⟩
    | infixE op l r => exact ⟨by simp [displayExpr], Or.inr (Or.inr rfl)⟩
    | call f args =>
      unfold printableE at hp
      rw [Bool.and_eq_true] at hp
      have hsz : sizeE f ≤ k := by
        have h1 := sizeArgs_pos args
        simp [sizeE] at hs
        omega
      obtain ⟨hne, hcls⟩ := ih f hsz hp.1
      constructor
      · intro hcon
        rw [show displayExpr (.call f args) =
            displayExpr f ++ [40] ++ joinComma (displayExprList args) ++ [41]
          from rfl] at hcon
        simp at hcon
      · rw [show displayExpr (.call f args) =
            displayExpr f ++ [40] ++ joinComma (displayExprList args) ++ [41]
          from rfl, List.append_assoc, List.append_assoc, headD_append_left _ _ hne]
        exact hcls
    | string s => simp [printableE] at hp
    | ifE c t a => simp [printableE] at hp
    | function ps body => simp [printableE] at hp

theorem eofFreeAux : ∀ k,
    (∀ e, sizeE e ≤ k → Token.EOF ∉ tokE e) ∧
    (∀ as, sizeArgs as ≤ k → Token.EOF ∉ tokArgs as ∧ Token.EOF ∉ tokArgsSep as) := by
  intro k
  induction k with
  | zero =>
    constructor
    · intro e hs
      exact absurd hs (by have := sizeE_pos e; omega)
    · intro as hs
      exact absurd hs (by have := sizeArgs_pos as; omega)
  | succ k ih =>
    obtain ⟨ihE, ihA⟩ := ih
    constructor
    · intro e hs
      cases e with
      | identifier nm => simp [tokE]
      | integer n => simp [tokE]
      | boolean b => cases b <;> simp [tokE]
      | prefixE op r =>
        have hr : sizeE r ≤ k := by simp [sizeE] at hs; omega
        cases op <;> simp [tokE, prefixTok, ihE r hr]
      | infixE op l r =>
        have hl : sizeE l ≤ k := by
          simp [sizeE] at hs
          have := sizeE_pos r
          omega
        have hr : sizeE r ≤ k := by
          simp [sizeE] at hs
          have := sizeE_pos l
          omega
        cases op <;> simp [tokE, infixTok, ihE l hl, ihE r hr]
      | call f args =>
        have hf : sizeE f ≤ k := by
          simp [sizeE] at hs
          have := sizeArgs_pos args
          omega
        have ha : sizeArgs args ≤ k := by
          simp [sizeE] at hs
          have := sizeE_pos f
          omega
        simp [tokE, ihE f hf, (ihA args ha).1]
      | string s => simp [tokE]
      | ifE c t a => simp [tokE]
      | function ps body => simp [tokE]
    · intro as hs
      cases as with
      | nil => exact ⟨by simp [tokArgs], by simp [tokArgsSep]⟩
      | cons a as2 =>
        have hA : sizeE a ≤ k := by
          simp [sizeArgs] at hs
          have := sizeArgs_pos as2
          omega
        have hA2 : sizeArgs as2 ≤ k := by
          simp [sizeArgs] at hs
          have := sizeE_pos a
          omega
        constructor
        · simp [tokArgs, ihE a hA, (ihA as2 hA2).2]
        · simp [tokArgsSep, ihE a hA, (ihA as2 hA2).2]

theorem lenTokAux : ∀ k,
    (∀ e, sizeE e ≤ k → printableE e = true →
      (tokE e).length ≤ (displayExpr e).length) ∧
    (∀ as, sizeArgs as ≤ k → printableArgs as = true →
      (tokArgs as).length ≤ (joinComma (displayExprList as)).length) := by
  intro k
  induction k with
  | zero =>
    constructor
    · intro e hs _
      exact absurd hs (by have := sizeE_pos e; omega)
    · intro as hs _
      exact absurd hs (by have := sizeArgs_pos as; omega)
  | succ k ih =>
    obtain ⟨ihE, ihA⟩ := ih
    constructor
    · intro e hs hp
      cases e with
      | identifier nm =>
        unfold printableE validIdent at hp
        rw [Bool.and_eq_true, Bool.and_eq_true] at hp
        have hne : nm ≠ [] := of_decide_eq_true hp.1.1
        have h1 : 1 ≤ nm.length := List.length_pos.mpr hne
        simpa [tokE, displayExpr] using h1
      | integer n =>
        unfold printableE at hp
        rw [Bool.and_eq_true] at hp
        have h0 : (0 : Int) ≤ n := of_decide_eq_true hp.1
        have hd : displayExpr (.integer n) = natDigits n.natAbs := by
          show intToBytes n = _
          unfold intToBytes
          rw [if_neg (by omega)]
        rw [hd]
        have h1 := List.length_pos.mpr (natDigits_ne n.natAbs)
        simp [tokE]
        omega
      | boolean b => cases b <;> decide
      | prefixE op r =>
        have hr : sizeE r ≤ k := by simp [sizeE] at hs; omega
        unfold printableE at hp
        have h1 := ihE r hr hp
        cases op <;> simp [tokE, displayExpr, displayPrefixOp] <;> omega
      | infixE op l r =>
        have hl : sizeE l ≤ k := by
          simp [sizeE] at hs
          have := sizeE_pos r
          omega
        have hr : sizeE r ≤ k := by
          simp [sizeE] at hs
          have := sizeE_pos l
          omega
        unfold printableE at hp
        rw [Bool.and_eq_true] at hp
        have h1 := ihE l hl hp.1
        have h2 := ihE r hr hp.2
        have hop : 1 ≤ (displayInfixOp op).length := by cases op <;> decide
        simp [tokE, displayExpr]
        omega
      | call f args =>
        have hf : sizeE f ≤ k := by
          simp [sizeE] at hs
          have := sizeArgs_pos args
          omega
        have ha : sizeArgs args ≤ k := by
          simp [sizeE] at hs
          have := sizeE_pos f
          omega
        unfold printableE at hp
        rw [Bool.and_eq_true] at hp
        have h1 := ihE f hf hp.1
        have h2 := ihA args ha hp.2
        simp [tokE, displayExpr]
        omega
      | string s => simp [printableE] at hp
      | ifE c t a => simp [printableE] at hp
      | function ps body => simp [printableE] at hp
    · intro as hs hp
      cases as with
      | nil => simp [tokArgs, displayExprList, joinComma]
      | cons a as2 =>
        have hA : sizeE a ≤ k := by
          simp [sizeArgs] at hs
          have := sizeArgs_pos as2
          omega
        have hA2 : sizeArgs as2 ≤ k := by
          simp [sizeArgs] at hs
          have := sizeE_pos a
          omega
        unfold printableArgs at hp
        rw [Bool.and_eq_true] at hp
        have h1 := ihE a hA hp.1
        cases as2 with
        | nil => simpa [tokArgs, tokArgsSep, displayExprList, joinComma] using h1
        | cons a2 as3 =>
          have h2 := ihA (a2 :: as3) hA2 hp.2
          simp [tokArgs, tokArgsSep, displayExprList, joinComma] at h2 ⊢
          omega

theorem lexesTo_append : ∀ (ts1 : List Token) (s s1 s2 : List Nat) (ts2 : List Token),
    lexesTo s ts1 s1 → lexesTo s1 ts2 s2 → lexesTo s (ts1 ++ ts2) s2 := by
  intro ts1
  induction ts1 with
  | nil =>
    intro s s1 s2 ts2 h1 h2
    have he : s = s1 := h1
    subst he
    simpa using h2
  | cons t ts ih =>
    intro s s1 s2 ts2 h1 h2
    obtain ⟨sm, hstep, hrest⟩ := h1
    exact ⟨sm, hstep, ih sm s1 s2 ts2 hrest h2⟩

theorem displayLexAux : ∀ k,
    (∀ e, sizeE e ≤ k → printableE e = true → ∀ rest : List Nat,
      isLetterB (rest.headD 0) = false → isDigitB (rest.headD 0) = false →
      lexesTo (displayExpr e ++ rest) (tokE e) rest) ∧
    (∀ as, sizeArgs as ≤ k → printableArgs as = true → ∀ rest : List Nat,
      lexesTo (joinComma (displayExprList as) ++ 41 :: rest)
        (tokArgs as ++ [Token.RParen]) rest) := by
  intro k
  induction k with
  | zero =>
    constructor
    · intro e hs _
      exact absurd hs (by have := sizeE_pos e; omega)
    · intro as hs _
      exact absurd hs (by have := sizeArgs_pos as; omega)
  | succ k ih =>
    obtain ⟨ihE, ihA⟩ := ih
    constructor
    · intro e hs hp rest hb1 hb2
      cases e with
      | identifier nm =>
        exact ⟨rest, lexStep_ident nm rest (by simpa [printableE] using hp) hb1, rfl⟩
      | integer n =>
        unfold printableE at hp
        rw [Bool.and_eq_true] at hp
        have h0 : (0 : Int) ≤ n := of_decide_eq_true hp.1
        have h1 : n ≤ (i64Max : Int) := of_decide_eq_true hp.2
        have hd : displayExpr (.integer n) = natDigits n.natAbs := by
          show intToBytes n = _
          unfold intToBytes
          rw [if_neg (by omega)]
        have hm : n.natAbs ≤ i64Max := by
          have h2 : n ≤ (9223372036854775807 : Int) := by simpa [i64Max] using h1
          unfold i64Max
          omega
        have hstep := lexStep_int n.natAbs rest hm hb2
        have hn : Int.ofNat n.natAbs = n := by
          simpa using Int.natAbs_of_nonneg h0
        rw [hn] at hstep
        exact ⟨rest, by rw [hd]; exact hstep, rfl⟩
      | boolean b =>
        cases b
        · exact ⟨rest, lexStep_false rest hb1, rfl⟩
        · exact ⟨rest, lexStep_true rest hb1, rfl⟩
      | prefixE op r =>
        have hr : sizeE r ≤ k := by simp [sizeE] at hs; omega
        unfold printableE at hp
        obtain ⟨hne, hcls⟩ := displayHeadAux (sizeE r) r le_rfl hp
        have htail : lexesTo (displayExpr r ++ 41 :: rest) (tokE r ++ [Token.RParen])
            rest :=
          lexesTo_append (tokE r) _ _ _ [Token.RParen]
            (ihE r hr hp (41 :: rest) rfl rfl) ⟨rest, lexStep_rparen rest, rfl⟩
        simp only [displayExpr, tokE, List.cons_append, List.append_assoc,
          List.singleton_append, List.nil_append]
        refine ⟨_, lexStep_lparen _, ?_⟩
        cases op with
        | bang =>
          have hne61 : (displayExpr r ++ 41 :: rest).headD 0 ≠ 61 := by
            rw [headD_append_left _ _ hne]
            rcases hcls with h | h | h <;>
              (intro he; rw [he] at h; exact absurd h (by decide))
          exact ⟨_, lexStep_bang _ hne61, htail⟩
        | minus => exact ⟨_, lexStep_minus _, htail⟩
      | infixE op l r =>
        have hl : sizeE l ≤ k := by
          simp [sizeE] at hs
          have := sizeE_pos r
          omega
        have hr : sizeE r ≤ k := by
          simp [sizeE] at hs
          have := sizeE_pos l
          omega
        unfold printableE at hp
        rw [Bool.and_eq_true] at hp
        have htail : lexesTo (displayExpr r ++ 41 :: rest) (tokE r ++ [Token.RParen])
            rest :=
          lexesTo_append (tokE r) _ _ _ [Token.RParen]
            (ihE r hr hp.2 (41 :: rest) rfl rfl) ⟨rest, lexStep_rparen rest, rfl⟩
        simp only [displayExpr, tokE, List.cons_append, List.append_assoc,
          List.singleton_append, List.nil_append]
        refine ⟨_, lexStep_lparen _, ?_⟩
        refine lexesTo_append (tokE l) _ _ _ _ (ihE l hl hp.1 _ ?_ ?_) ?_
        · cases op <;> rfl
        · cases op <;> rfl
        · cases op with
          | eq => exact ⟨_, lexStep_eq2 _, htail⟩
          | notEq => exact ⟨_, lexStep_noteq _, htail⟩
          | lt => exact ⟨_, lexStep_lt _, htail⟩
          | gt => exact ⟨_, lexStep_gt _, htail⟩
          | plus => exact ⟨_, lexStep_plus _, htail⟩
          | minus => exact ⟨_, lexStep_minus _, htail⟩
          | slash => exact ⟨_, lexStep_slash _, htail⟩
          | asterisk => exact ⟨_, lexStep_asterisk _, htail⟩
      | call f args =>
        have hf : sizeE f ≤ k := by
          simp [sizeE] at hs
          have := sizeArgs_pos args
          omega
        have ha : sizeArgs args ≤ k := by
          simp [sizeE] at hs
          have := sizeE_pos f
          omega
        unfold printableE at hp
        rw [Bool.and_eq_true] at hp
        simp only [displayExpr, tokE, List.cons_append, List.append_assoc,
          List.singleton_append, List.nil_append]
        refine lexesTo_append (tokE f) _ _ _ _ (ihE f hf hp.1 _ rfl rfl) ?_
        exact ⟨_, lexStep_lparen _, ihA args ha hp.2 rest⟩
      | string s => simp [printableE] at hp
      | ifE c t a => simp [printableE] at hp
      | function ps body => simp [printableE] at hp
    · intro as hs hp rest
      cases as with
      | nil => exact ⟨rest, lexStep_rparen rest, rfl⟩
      | cons a as2 =>
        have hA : sizeE a ≤ k := by
          simp [sizeArgs] at hs
          have := sizeArgs_pos as2
          omega
        have hA2 : sizeArgs as2 ≤ k := by
          simp [sizeArgs] at hs
          have := sizeE_pos a
          omega
        unfold printableArgs at hp
        rw [Bool.and_eq_true] at hp
        cases as2 with
        | nil =>
          simp only [displayExprList, joinComma, tokArgs, tokArgsSep, List.append_nil]
          exact lexesTo_append (tokE a) _ _ _ [Token.RParen]
            (ihE a hA hp.1 (41 :: rest) rfl rfl) ⟨rest, lexStep_rparen rest, rfl⟩
        | cons a2 as3 =>
          simp only [displayExprList, joinComma, tokArgs, tokArgsSep, List.cons_append,
            List.append_assoc, List.singleton_append, List.nil_append]
          refine lexesTo_append (tokE a) _ _ _ _ (ihE a hA hp.1 _ rfl rfl) ?_
          refine ⟨_, lexStep_comma _, ?_⟩
          have h2 := ihA (a2 :: as3) hA2 hp.2 rest
          simpa [tokArgs, displayExprList, List.append_assoc] using h2

theorem lexesTo_run : ∀ (ts : List Token) (s s' : List Nat) (fuel : Nat),
    lexesTo s ts s' → Token.EOF ∉ ts → (∃ s2, lexStep s' = some (.EOF, s2)) →
    ts.length < fuel → listLexAllAux fuel s = some ts := by
  intro ts
  induction ts with
  | nil =>
    intro s s' fuel h _ heof hf
    have he : s = s' := h
    subst he
    obtain ⟨s2, h2⟩ := heof
    cases fuel with
    | zero => omega
    | succ fuel =>
      show (match lexStep s with
        | some (.EOF, _) => some []
        | some (t, s1) => (listLexAllAux fuel s1).map (t :: ·)
        | none => none) = some []
      rw [h2]
  | cons t ts ih =>
    intro s s' fuel h hmem heof hf
    obtain ⟨s1, hstep, hrest⟩ := h
    rw [List.mem_cons] at hmem
    have h1 : ¬(Token.EOF = t) := fun he => hmem (Or.inl he)
    have h2 : Token.EOF ∉ ts := fun he => hmem (Or.inr he)
    cases fuel with
    | zero => simp at hf
    | succ fuel =>
      have hrun := ih s1 s' fuel hrest h2 heof (by simp at hf; omega)
      show (match lexStep s with
        | some (.EOF, _) => some []
        | some (t, s1) => (listLexAllAux fuel s1).map (t :: ·)
        | none => none) = some (t :: ts)
      rw [hstep]
      cases t with
      | EOF => exact absurd rfl h1
      | _ => simp [hrun]

theorem lexAll_display (e : Expression) (hp : printableE e = true) :
    lexAll (displayExpr e) = some (tokE e) := by
  have hw : (Lexer.new (displayExpr e)).wf := readCharL_wf _
  have hsuf : (Lexer.new (displayExpr e)).suffix = displayExpr e := rfl
  have hchain := (displayLexAux (sizeE e)).1 e le_rfl hp [] rfl rfl
  rw [List.append_nil] at hchain
  have hlen := (lenTokAux (sizeE e)).1 e le_rfl hp
  unfold lexAll
  rw [lexAllAux_sim _ _ hw, hsuf]
  exact lexesTo_run (tokE e) (displayExpr e) [] _ hchain
    ((eofFreeAux (sizeE e)).1 e le_rfl) ⟨[], rfl⟩ (by omega)

/-! ## Parser round trip (C7) -/

theorem stFor_eq_startSt (ts : List Token) : stFor ts = startSt ts := by
  unfold stFor startSt
  cases ts with
  | nil => rfl
  | cons t ts =>
    cases ts with
    | nil => rfl
    | cons u us => rfl

theorem precLt_lowest (p : Precedence) : precLt p .lowest = false := by
  cases p <;> rfl

theorem parseAll_loopF_succ (n : Nat) (prec : Precedence) (left : Expression)
    (st : PState) :
    (parseAll (n + 1)).loopF prec left st =
      (if st.peek ≠ Token.SemiColon ∧ precLt prec st.peek.precedence then
        match st.peek with
        | .Plus | .Minus | .Slash | .Asterisk | .Eq | .NotEq | .LT | .GT =>
          match (parseAll n).infixStepF left st.advance with
          | none => none
          | some (.error e) => some (.error e)
          | some (.ok (left2, st2)) => (parseAll n).loopF prec left2 st2
        | .LParen =>
          match (parseAll n).callF left st.advance with
          | none => none
          | some (.error e) => some (.error e)
          | some (.ok (left2, st2)) => (parseAll n).loopF prec left2 st2
        | _ => some (.ok (left, st))
      else some (.ok (left, st))) := rfl

theorem loopF_stop (m : Nat) (prec : Precedence) (e : Expression) (st : PState)
    (h : st.peek = Token.SemiColon ∨ precLt prec st.peek.precedence = false) :
    (parseAll (m + 1)).loopF prec e st = some (.ok (e, st)) := by
  have hcond : ¬(st.peek ≠ Token.SemiColon ∧ precLt prec st.peek.precedence = true) := by
    rcases h with h | h
    · intro hc
      exact hc.1 h
    · intro hc
      rw [h] at hc
      exact absurd hc.2 (by simp)
  rw [parseAll_loopF_succ, if_neg hcond]

theorem tokHeadD_append (l1 l2 : List Token) (h : l1 ≠ []) :
    (l1 ++ l2).headD .EOF = l1.headD .EOF := by
  cases l1 with
  | nil => exact absurd rfl h
  | cons a l => rfl

theorem tokE_start : ∀ k e, sizeE e ≤ k → printableE e = true →
    tokE e ≠ [] ∧ exprStartTok ((tokE e).headD .EOF) = true := by
  intro k
  induction k with
  | zero =>
    intro e hs _
    exact absurd hs (by have := sizeE_pos e; omega)
  | succ k ih =>
    intro e hs hp
    cases e with
    | identifier nm => exact ⟨by simp [tokE], rfl⟩
    | integer n => exact ⟨by simp [tokE], rfl⟩
    | boolean b => cases b <;> exact ⟨by simp [tokE], rfl⟩
    | prefixE op r => exact ⟨by simp [tokE], rfl⟩
    | infixE op l r => exact ⟨by simp [tokE], rfl⟩
    | call f args =>
      unfold printableE at hp
      rw [Bool.and_eq_true] at hp
      have hf : sizeE f ≤ k := by
        simp [sizeE] at hs
        have := sizeArgs_pos args
        omega
      obtain ⟨hne, hstart⟩ := ih f hf hp.1
      constructor
      · simp [tokE, hne]
      · rw [show tokE (.call f args) =
            (tokE f ++ (.LParen :: tokArgs args)) ++ [.RParen] from rfl,
          tokHeadD_append _ _ (by simp), tokHeadD_append _ _ hne]
        exact hstart
    | string s => simp [printableE] at hp
    | ifE c t a => simp [printableE] at hp
    | function ps body => simp [printableE] at hp

theorem exprStart_shape (t : Token) (h : exprStartTok t = true) :
    (∃ nm, t = .Identifier nm) ∨ (∃ n, t = .IntLiteral n) ∨ t = .True ∨ t = .False ∨
      t = .LParen := by
  cases t <;> simp_all [exprStartTok]

theorem infixStepF_ok (m : Nat) (l r : Expression) (op : InfixOp)
    (rest : List Token)
    (hR : (parseAll m).exprF (infixTok op).precedence
        (startSt (tokE r ++ .RParen :: rest)) =
      some (.ok (r, stAfter (lastTok r) (.RParen :: rest)))) :
    (parseAll (m + 1)).infixStepF l
      (stAfter (infixTok op) (tokE r ++ .RParen :: rest)) =
      some (.ok (.infixE op l r, stAfter (lastTok r) (.RParen :: rest))) := by
  cases op with
  | eq =>
    show ((match (parseAll m).exprF (infixTok InfixOp.eq).precedence
        (startSt (tokE r ++ .RParen :: rest)) with
      | none => none
      | some (.error e) => some (.error e)
      | some (.ok (right, st1)) => some (.ok (.infixE .eq l right, st1))) : ParseRes Expression) = _
    rw [hR]
  | notEq =>
    show ((match (parseAll m).exprF (infixTok InfixOp.notEq).precedence
        (startSt (tokE r ++ .RParen :: rest)) with
      | none => none
      | some (.error e) => some (.error e)
      | some (.ok (right, st1)) => some (.ok (.infixE .notEq l right, st1))) : ParseRes Expression) = _
    rw [hR]
  | lt =>
    show ((match (parseAll m).exprF (infixTok InfixOp.lt).precedence
        (startSt (tokE r ++ .RParen :: rest)) with
      | none => none
      | some (.error e) => some (.error e)
      | some (.ok (right, st1)) => some (.ok (.infixE .lt l right, st1))) : ParseRes Expression) = _
    rw [hR]
  | gt =>
    show ((match (parseAll m).exprF (infixTok InfixOp.gt).precedence
        (startSt (tokE r ++ .RParen :: rest)) with
      | none => none
      | some (.error e) => some (.error e)
      | some (.ok (right, st1)) => some (.ok (.infixE .gt l right, st1))) : ParseRes Expression) = _
    rw [hR]
  | plus =>
    show ((match (parseAll m).exprF (infixTok InfixOp.plus).precedence
        (startSt (tokE r ++ .RParen :: rest)) with
      | none => none
      | some (.error e) => some (.error e)
      | some (.ok (right, st1)) => some (.ok (.infixE .plus l right, st1))) : ParseRes Expression) = _
    rw [hR]
  | minus =>
    show ((match (parseAll m).exprF (infixTok InfixOp.minus).precedence
        (startSt (tokE r ++ .RParen :: rest)) with
      | none => none
      | some (.error e) => some (.error e)
      | some (.ok (right, st1)) => some (.ok (.infixE .minus l right, st1))) : ParseRes Expression) = _
    rw [hR]
  | slash =>
    show ((match (parseAll m).exprF (infixTok InfixOp.slash).precedence
        (startSt (tokE r ++ .RParen :: rest)) with
      | none => none
      | some (.error e) => some (.error e)
      | some (.ok (right, st1)) => some (.ok (.infixE .slash l right, st1))) : ParseRes Expression) = _
    rw [hR]
  | asterisk =>
    show ((match (parseAll m).exprF (infixTok InfixOp.asterisk).precedence
        (startSt (tokE r ++ .RParen :: rest)) with
      | none => none
      | some (.error e) => some (.error e)
      | some (.ok (right, st1)) => some (.ok (.infixE .asterisk l right, st1))) : ParseRes Expression) = _
    rw [hR]

theorem loopF_iter_op (m : Nat) (T : Token) (l E2 : Expression) (op : InfixOp)
    (Y : List Token) (st2 : PState)
    (hS : (parseAll m).infixStepF l (stAfter (infixTok op) Y) = some (.ok (E2, st2))) :
    (parseAll (m + 1)).loopF .lowest l (stAfter T (infixTok op :: Y)) =
      (parseAll m).loopF .lowest E2 st2 := by
  have hcond : (stAfter T (infixTok op :: Y)).peek ≠ Token.SemiColon ∧
      precLt .lowest (stAfter T (infixTok op :: Y)).peek.precedence = true := by
    cases op <;> exact ⟨fun hc => Token.noConfusion hc, rfl⟩
  rw [parseAll_loopF_succ, if_pos hcond]
  cases op with
  | eq =>
    show ((match (parseAll m).infixStepF l (stAfter (infixTok InfixOp.eq) Y) with
      | none => none
      | some (.error e) => some (.error e)
      | some (.ok (left2, st2)) => (parseAll m).loopF .lowest left2 st2) : ParseRes Expression) = _
    rw [hS]
  | notEq =>
    show ((match (parseAll m).infixStepF l (stAfter (infixTok InfixOp.notEq) Y) with
      | none => none
      | some (.error e) => some (.error e)
      | some (.ok (left2, st2)) => (parseAll m).loopF .lowest left2 st2) : ParseRes Expression) = _
    rw [hS]
  | lt =>
    show ((match (parseAll m).infixStepF l (stAfter (infixTok InfixOp.lt) Y) with
      | none => none
      | some (.error e) => some (.error e)
      | some (.ok (left2, st2)) => (parseAll m).loopF .lowest left2 st2) : ParseRes Expression) = _
    rw [hS]
  | gt =>
    show ((match (parseAll m).infixStepF l (stAfter (infixTok InfixOp.gt) Y) with
      | none => none
      | some (.error e) => some (.error e)
      | some (.ok (left2, st2)) => (parseAll m).loopF .lowest left2 st2) : ParseRes Expression) = _
    rw [hS]
  | plus =>
    show ((match (parseAll m).infixStepF l (stAfter (infixTok InfixOp.plus) Y) with
      | none => none
      | some (.error e) => some (.error e)
      | some (.ok (left2, st2)) => (parseAll m).loopF .lowest left2 st2) : ParseRes Expression) = _
    rw [hS]
  | minus =>
    show ((match (parseAll m).infixStepF l (stAfter (infixTok InfixOp.minus) Y) with
      | none => none
      | some (.error e) => some (.error e)
      | some (.ok (left2, st2)) => (parseAll m).loopF .lowest left2 st2) : ParseRes Expression) = _
    rw [hS]
  | slash =>
    show ((match (parseAll m).infixStepF l (stAfter (infixTok InfixOp.slash) Y) with
      | none => none
      | some (.error e) => some (.error e)
      | some (.ok (left2, st2)) => (parseAll m).loopF .lowest left2 st2) : ParseRes Expression) = _
    rw [hS]
  | asterisk =>
    show ((match (parseAll m).infixStepF l (stAfter (infixTok InfixOp.asterisk) Y) with
      | none => none
      | some (.error e) => some (.error e)
      | some (.ok (left2, st2)) => (parseAll m).loopF .lowest left2 st2) : ParseRes Expression) = _
    rw [hS]

theorem loopF_iter_call (m : Nat) (prec : Precedence) (T : Token) (f E2 : Expression)
    (Y : List Token) (st2 : PState)
    (hprec : precLt prec .call = true)
    (hC : (parseAll m).callF f (stAfter .LParen Y) = some (.ok (E2, st2))) :
    (parseAll (m + 1)).loopF prec f (stAfter T (.LParen :: Y)) =
      (parseAll m).loopF prec E2 st2 := by
  have hcond : (stAfter T (.LParen :: Y)).peek ≠ Token.SemiColon ∧
      precLt prec (stAfter T (.LParen :: Y)).peek.precedence = true :=
    ⟨fun hc => Token.noConfusion hc, hprec⟩
  rw [parseAll_loopF_succ, if_pos hcond]
  show ((match (parseAll m).callF f (stAfter .LParen Y) with
    | none => none
    | some (.error e) => some (.error e)
    | some (.ok (left2, st2)) => (parseAll m).loopF prec left2 st2) : ParseRes Expression) = _
  rw [hC]

theorem exprStart_ne_rparen (t : Token) (h : exprStartTok t = true) :
    ¬(t = Token.RParen) := by
  cases t <;> simp_all [exprStartTok]

theorem parseAll_callArgsF_succ (n : Nat) (st : PState) :
    (parseAll (n + 1)).callArgsF st =
      (if st.peek = Token.RParen then some (.ok ([], st.advance))
      else
        match (parseAll n).exprF .lowest st.advance with
        | none => none
        | some (.error e) => some (.error e)
        | some (.ok (a, st1)) => (parseAll n).callArgsLoopF [a] st1) := rfl

theorem parseRTAux : ∀ k,
    (∀ e, sizeE e ≤ k → printableE e = true →
      ∀ prec, precLt prec .call = true →
      ∀ (rest : List Token) (n : Nat), pfE e ≤ n →
      ∃ m, n - pfE e ≤ m ∧ m < n ∧
        (parseAll n).exprF prec (startSt (tokE e ++ rest)) =
          (parseAll m).loopF prec e (stAfter (lastTok e) rest)) ∧
    (∀ as, sizeArgs as ≤ k → printableArgs as = true →
      ∀ (t : Token) (rest : List Token) (n : Nat), pfArgs as ≤ n →
      (parseAll n).callArgsF (stAfter t (tokArgs as ++ .RParen :: rest)) =
        some (.ok (as, stAfter .RParen rest))) ∧
    (∀ as, sizeArgs as ≤ k → printableArgs as = true →
      ∀ (acc : List Expression) (t : Token) (rest : List Token) (n : Nat),
        pfArgs as ≤ n →
      (parseAll n).callArgsLoopF acc (stAfter t (tokArgsSep as ++ .RParen :: rest)) =
        some (.ok (acc ++ as, stAfter .RParen rest))) := by
  intro k
  induction k with
  | zero =>
    refine ⟨?_, ?_, ?_⟩
    · intro e hs _
      exact absurd hs (by have := sizeE_pos e; omega)
    · intro as hs _
      exact absurd hs (by have := sizeArgs_pos as; omega)
    · intro as hs _
      exact absurd hs (by have := sizeArgs_pos as; omega)
  | succ k ih =>
    obtain ⟨ihE, ihA2, ihA3⟩ := ih
    refine ⟨?_, ?_, ?_⟩
    · intro e hs hp prec hprec rest n hn
      cases e with
      | identifier nm =>
        simp only [pfE] at hn ⊢
        obtain ⟨n1, rfl⟩ : ∃ n1, n = n1 + 1 := ⟨n - 1, by omega⟩
        exact ⟨n1, by omega, by omega, rfl⟩
      | integer nv =>
        simp only [pfE] at hn ⊢
        obtain ⟨n1, rfl⟩ : ∃ n1, n = n1 + 1 := ⟨n - 1, by omega⟩
        exact ⟨n1, by omega, by omega, rfl⟩
      | boolean b =>
        simp only [pfE] at hn ⊢
        obtain ⟨n1, rfl⟩ : ∃ n1, n = n1 + 1 := ⟨n - 1, by omega⟩
        cases b
        · exact ⟨n1, by omega, by omega, rfl⟩
        · exact ⟨n1, by omega, by omega, rfl⟩
      | prefixE op r =>
        have hr : sizeE r ≤ k := by simp [sizeE] at hs; omega
        unfold printableE at hp
        simp only [pfE] at hn ⊢
        obtain ⟨n4, rfl⟩ : ∃ n4, n = n4 + 4 := ⟨n - 4, by omega⟩
        obtain ⟨m, hm1, hm2, hEq⟩ :=
          ihE r hr hp .prefixOp rfl (.RParen :: rest) n4 (by omega)
        obtain ⟨m', rfl⟩ : ∃ m', m = m' + 1 := ⟨m - 1, by omega⟩
        have h4 : (parseAll n4).exprF .prefixOp
            (startSt (tokE r ++ .RParen :: rest)) =
            some (.ok (r, stAfter (lastTok r) (.RParen :: rest))) := by
          rw [hEq]
          exact loopF_stop m' .prefixOp r _ (Or.inr rfl)
        cases op with
        | bang =>
          have hlist : tokE (.prefixE .bang r) ++ rest =
              .LParen :: .Bang :: (tokE r ++ .RParen :: rest) := by
            simp [tokE, prefixTok]
          have h3 : (parseAll (n4 + 1)).prefixF
              (stAfter .Bang (tokE r ++ .RParen :: rest)) =
              some (.ok (.prefixE .bang r, stAfter (lastTok r) (.RParen :: rest))) := by
            show ((match (parseAll n4).exprF .prefixOp
                (startSt (tokE r ++ .RParen :: rest)) with
              | none => none
              | some (.error e) => some (.error e)
              | some (.ok (r, st1)) => some (.ok (.prefixE .bang r, st1))) : ParseRes Expression) = _
            rw [h4]
          have h2 : (parseAll (n4 + 2)).exprF .lowest
              (stAfter .Bang (tokE r ++ .RParen :: rest)) =
              some (.ok (.prefixE .bang r, stAfter (lastTok r) (.RParen :: rest))) := by
            show ((match (parseAll (n4 + 1)).prefixF
                (stAfter .Bang (tokE r ++ .RParen :: rest)) with
              | none => none
              | some (.error e) => some (.error e)
              | some (.ok (e, st1)) => (parseAll (n4 + 1)).loopF .lowest e st1) : ParseRes Expression) = _
            rw [h3]
            exact loopF_stop n4 .lowest (.prefixE .bang r) _ (Or.inr rfl)
          have h1 : (parseAll (n4 + 3)).groupF
              (stAfter .LParen (.Bang :: (tokE r ++ .RParen :: rest))) =
              some (.ok (.prefixE .bang r, stAfter .RParen rest)) := by
            show ((match (parseAll (n4 + 2)).exprF .lowest
                (stAfter .Bang (tokE r ++ .RParen :: rest)) with
              | none => none
              | some (.error e) => some (.error e)
              | some (.ok (e, st1)) =>
                match expectPeek .RParen st1 with
                | .error e2 => some (.error e2)
                | .ok st2 => some (.ok (e, st2))) : ParseRes Expression) = _
            rw [h2]
            rfl
          rw [hlist]
          refine ⟨n4 + 3, by omega, by omega, ?_⟩
          show ((match (parseAll (n4 + 3)).groupF
              (stAfter .LParen (.Bang :: (tokE r ++ .RParen :: rest))) with
            | none => none
            | some (.error e) => some (.error e)
            | some (.ok (e, st1)) => (parseAll (n4 + 3)).loopF prec e st1) : ParseRes Expression) = _
          rw [h1]
          rfl
        | minus =>
          have hlist : tokE (.prefixE .minus r) ++ rest =
              .LParen :: .Minus :: (tokE r ++ .RParen :: rest) := by
            simp [tokE, prefixTok]
          have h3 : (parseAll (n4 + 1)).prefixF
              (stAfter .Minus (tokE r ++ .RParen :: rest)) =
              some (.ok (.prefixE .minus r, stAfter (lastTok r) (.RParen :: rest))) := by
            show ((match (parseAll n4).exprF .prefixOp
                (startSt (tokE r ++ .RParen :: rest)) with
              | none => none
              | some (.error e) => some (.error e)
              | some (.ok (r, st1)) => some (.ok (.prefixE .minus r, st1))) : ParseRes Expression) = _
            rw [h4]
          have h2 : (parseAll (n4 + 2)).exprF .lowest
              (stAfter .Minus (tokE r ++ .RParen :: rest)) =
              some (.ok (.prefixE .minus r, stAfter (lastTok r) (.RParen :: rest))) := by
            show ((match (parseAll (n4 + 1)).prefixF
                (stAfter .Minus (tokE r ++ .RParen :: rest)) with
              | none => none
              | some (.error e) => some (.error e)
              | some (.ok (e, st1)) => (parseAll (n4 + 1)).loopF .lowest e st1) : ParseRes Expression) = _
            rw [h3]
            exact loopF_stop n4 .lowest (.prefixE .minus r) _ (Or.inr rfl)
          have h1 : (parseAll (n4 + 3)).groupF
              (stAfter .LParen (.Minus :: (tokE r ++ .RParen :: rest))) =
              some (.ok (.prefixE .minus r, stAfter .RParen rest)) := by
            show ((match (parseAll (n4 + 2)).exprF .lowest
                (stAfter .Minus (tokE r ++ .RParen :: rest)) with
              | none => none
              | some (.error e) => some (.error e)
              | some (.ok (e, st1)) =>
                match expectPeek .RParen st1 with
                | .error e2 => some (.error e2)
                | .ok st2 => some (.ok (e, st2))) : ParseRes Expression) = _
            rw [h2]
            rfl
          rw [hlist]
          refine ⟨n4 + 3, by omega, by omega, ?_⟩
          show ((match (parseAll (n4 + 3)).groupF
              (stAfter .LParen (.Minus :: (tokE r ++ .RParen :: rest))) with
            | none => none
            | some (.error e) => some (.error e)
            | some (.ok (e, st1)) => (parseAll (n4 + 3)).loopF prec e st1) : ParseRes Expression) = _
          rw [h1]
          rfl
      | infixE op l r =>
        have hl : sizeE l ≤ k := by
          simp [sizeE] at hs
          have := sizeE_pos r
          omega
        have hr : sizeE r ≤ k := by
          simp [sizeE] at hs
          have := sizeE_pos l
          omega
        unfold printableE at hp
        rw [Bool.and_eq_true] at hp
        simp only [pfE] at hn ⊢
        obtain ⟨n2, rfl⟩ : ∃ n2, n = n2 + 2 := ⟨n - 2, by omega⟩
        obtain ⟨ml, hml1, hml2, hEql⟩ := ihE l hl hp.1 .lowest rfl
          (infixTok op :: (tokE r ++ .RParen :: rest)) n2 (by omega)
        obtain ⟨ml2, rfl⟩ : ∃ ml2, ml = ml2 + 2 := ⟨ml - 2, by omega⟩
        obtain ⟨mr, hmr1, hmr2, hEqr⟩ := ihE r hr hp.2 (infixTok op).precedence
          (by cases op <;> rfl) (.RParen :: rest) ml2 (by omega)
        obtain ⟨mr', rfl⟩ : ∃ mr', mr = mr' + 1 := ⟨mr - 1, by omega⟩
        have hR : (parseAll ml2).exprF (infixTok op).precedence
            (startSt (tokE r ++ .RParen :: rest)) =
            some (.ok (r, stAfter (lastTok r) (.RParen :: rest))) := by
          rw [hEqr]
          exact loopF_stop mr' _ r _ (Or.inr (precLt_lowest _))
        have hS := infixStepF_ok ml2 l r op rest hR
        have hInner : (parseAll (ml2 + 2)).loopF .lowest l
            (stAfter (lastTok l) (infixTok op :: (tokE r ++ .RParen :: rest))) =
            some (.ok (.infixE op l r, stAfter (lastTok r) (.RParen :: rest))) := by
          rw [loopF_iter_op (ml2 + 1) (lastTok l) l (.infixE op l r) op _ _ hS]
          exact loopF_stop ml2 .lowest _ _ (Or.inr rfl)
        have hG : (parseAll (n2 + 1)).groupF
            (stAfter .LParen (tokE l ++ (infixTok op :: (tokE r ++ .RParen :: rest)))) =
            some (.ok (.infixE op l r, stAfter .RParen rest)) := by
          show ((match (parseAll n2).exprF .lowest
              (startSt (tokE l ++ (infixTok op :: (tokE r ++ .RParen :: rest)))) with
            | none => none
            | some (.error e) => some (.error e)
            | some (.ok (e, st1)) =>
              match expectPeek .RParen st1 with
              | .error e2 => some (.error e2)
              | .ok st2 => some (.ok (e, st2))) : ParseRes Expression) = _
          rw [hEql, hInner]
          rfl
        have hlist : tokE (.infixE op l r) ++ rest =
            .LParen :: (tokE l ++ (infixTok op :: (tokE r ++ .RParen :: rest))) := by
          simp [tokE]
        rw [hlist]
        refine ⟨n2 + 1, by omega, by omega, ?_⟩
        show ((match (parseAll (n2 + 1)).groupF
            (stAfter .LParen (tokE l ++ (infixTok op :: (tokE r ++ .RParen :: rest))))
            with
          | none => none
          | some (.error e) => some (.error e)
          | some (.ok (e, st1)) => (parseAll (n2 + 1)).loopF prec e st1) : ParseRes Expression) = _
        rw [hG]
        rfl
      | call f args =>
        have hf : sizeE f ≤ k := by
          simp [sizeE] at hs
          have := sizeArgs_pos args
          omega
        have ha : sizeArgs args ≤ k := by
          simp [sizeE] at hs
          have := sizeE_pos f
          omega
        unfold printableE at hp
        rw [Bool.and_eq_true] at hp
        simp only [pfE] at hn ⊢
        have hlist : tokE (.call f args) ++ rest =
            tokE f ++ (.LParen :: (tokArgs args ++ .RParen :: rest)) := by
          simp [tokE]
        rw [hlist]
        obtain ⟨mf, hmf1, hmf2, hEqf⟩ := ihE f hf hp.1 prec hprec
          (.LParen :: (tokArgs args ++ .RParen :: rest)) n (by omega)
        obtain ⟨mf2, rfl⟩ : ∃ mf2, mf = mf2 + 2 := ⟨mf - 2, by omega⟩
        have hA : (parseAll mf2).callArgsF
            (stAfter .LParen (tokArgs args ++ .RParen :: rest)) =
            some (.ok (args, stAfter .RParen rest)) :=
          ihA2 args ha hp.2 .LParen rest mf2 (by omega)
        have hC : (parseAll (mf2 + 1)).callF f
            (stAfter .LParen (tokArgs args ++ .RParen :: rest)) =
            some (.ok (.call f args, stAfter .RParen rest)) := by
          show ((match (parseAll mf2).callArgsF
              (stAfter .LParen (tokArgs args ++ .RParen :: rest)) with
            | none => none
            | some (.error e) => some (.error e)
            | some (.ok (args, st1)) => some (.ok (.call f args, st1))) : ParseRes Expression) = _
          rw [hA]
        refine ⟨mf2 + 1, by omega, by omega, ?_⟩
        rw [hEqf, loopF_iter_call (mf2 + 1) prec (lastTok f) f (.call f args) _ _
          hprec hC]
        rfl
      | string s => simp [printableE] at hp
      | ifE c t a => simp [printableE] at hp
      | function ps body => simp [printableE] at hp
    · intro as hs hp t rest n hn
      cases as with
      | nil =>
        simp only [pfArgs] at hn
        obtain ⟨n1, rfl⟩ : ∃ n1, n = n1 + 1 := ⟨n - 1, by omega⟩
        rfl
      | cons a as2 =>
        have hA : sizeE a ≤ k := by
          simp [sizeArgs] at hs
          have := sizeArgs_pos as2
          omega
        have hA2 : sizeArgs as2 ≤ k := by
          simp [sizeArgs] at hs
          have := sizeE_pos a
          omega
        unfold printableArgs at hp
        rw [Bool.and_eq_true] at hp
        simp only [pfArgs] at hn
        obtain ⟨n1, rfl⟩ : ∃ n1, n = n1 + 1 := ⟨n - 1, by omega⟩
        obtain ⟨hne, hstart⟩ := tokE_start (sizeE a) a le_rfl hp.1
        obtain ⟨ma, hma1, hma2, hEqa⟩ := ihE a hA hp.1 .lowest rfl
          (tokArgsSep as2 ++ .RParen :: rest) n1 (by omega)
        obtain ⟨ma', rfl⟩ : ∃ ma', ma = ma' + 1 := ⟨ma - 1, by omega⟩
        have hstop : (stAfter (lastTok a) (tokArgsSep as2 ++ .RParen :: rest)).peek =
            Token.SemiColon ∨
            precLt .lowest (stAfter (lastTok a)
              (tokArgsSep as2 ++ .RParen :: rest)).peek.precedence = false := by
          cases as2 <;> exact Or.inr rfl
        have hLoop : (parseAll n1).callArgsLoopF [a]
            (stAfter (lastTok a) (tokArgsSep as2 ++ .RParen :: rest)) =
            some (.ok (a :: as2, stAfter .RParen rest)) := by
          rw [ihA3 as2 hA2 hp.2 [a] (lastTok a) rest n1 (by omega)]
          rfl
        have hseq : tokArgs (a :: as2) ++ .RParen :: rest =
            tokE a ++ (tokArgsSep as2 ++ .RParen :: rest) := by
          simp [tokArgs]
        rw [hseq]
        have hrp : ¬((stAfter t
            (tokE a ++ (tokArgsSep as2 ++ .RParen :: rest))).peek = Token.RParen) := by
          show ¬((tokE a ++ (tokArgsSep as2 ++ .RParen :: rest)).headD .EOF =
            Token.RParen)
          rw [tokHeadD_append _ _ hne]
          exact exprStart_ne_rparen _ hstart
        rw [parseAll_callArgsF_succ, if_neg hrp]
        show ((match (parseAll n1).exprF .lowest
            (startSt (tokE a ++ (tokArgsSep as2 ++ .RParen :: rest))) with
          | none => none
          | some (.error e) => some (.error e)
          | some (.ok (a, st1)) => (parseAll n1).callArgsLoopF [a] st1) :
            ParseRes (List Expression)) = _
        rw [hEqa, loopF_stop ma' .lowest a _ hstop]
        exact hLoop
    · intro as hs hp acc t rest n hn
      cases as with
      | nil =>
        simp only [pfArgs] at hn
        obtain ⟨n1, rfl⟩ : ∃ n1, n = n1 + 1 := ⟨n - 1, by omega⟩
        rw [List.append_nil]
        rfl
      | cons b bs =>
        have hB : sizeE b ≤ k := by
          simp [sizeArgs] at hs
          have := sizeArgs_pos bs
          omega
        have hBs : sizeArgs bs ≤ k := by
          simp [sizeArgs] at hs
          have := sizeE_pos b
          omega
        unfold printableArgs at hp
        rw [Bool.and_eq_true] at hp
        simp only [pfArgs] at hn
        obtain ⟨n1, rfl⟩ : ∃ n1, n = n1 + 1 := ⟨n - 1, by omega⟩
        obtain ⟨mb, hmb1, hmb2, hEqb⟩ := ihE b hB hp.1 .lowest rfl
          (tokArgsSep bs ++ .RParen :: rest) n1 (by omega)
        obtain ⟨mb', rfl⟩ : ∃ mb', mb = mb' + 1 := ⟨mb - 1, by omega⟩
        have hstop : (stAfter (lastTok b) (tokArgsSep bs ++ .RParen :: rest)).peek =
            Token.SemiColon ∨
            precLt .lowest (stAfter (lastTok b)
              (tokArgsSep bs ++ .RParen :: rest)).peek.precedence = false := by
          cases bs <;> exact Or.inr rfl
        have hseq : tokArgsSep (b :: bs) ++ .RParen :: rest =
            .Comma :: (tokE b ++ (tokArgsSep bs ++ .RParen :: rest)) := by
          simp [tokArgsSep]
        rw [hseq]
        show ((match (parseAll n1).exprF .lowest
            (startSt (tokE b ++ (tokArgsSep bs ++ .RParen :: rest))) with
          | none => none
          | some (.error e) => some (.error e)
          | some (.ok (a, st1)) => (parseAll n1).callArgsLoopF (acc ++ [a]) st1) : ParseRes (List Expression)) = _
        rw [hEqb, loopF_stop mb' .lowest b _ hstop]
        exact (ihA3 bs hBs hp.2 (acc ++ [b]) (lastTok b) rest n1 (by omega)).trans
          (by simp)

theorem parseProgram_display (e : Expression) (hp : printableE e = true) (n : Nat)
    (hn : pfE e + 8 ≤ n) :
    parseProgram n (tokE e) = some (.ok [.expression e]) := by
  obtain ⟨n3, rfl⟩ : ∃ n3, n = n3 + 3 := ⟨n - 3, by have := sizeE_pos e; omega⟩
  obtain ⟨m, hm1, hm2, hEq⟩ := (parseRTAux (sizeE e)).1 e le_rfl hp .lowest rfl [] n3
    (by omega)
  obtain ⟨m', rfl⟩ : ∃ m', m = m' + 1 := ⟨m - 1, by omega⟩
  rw [List.append_nil] at hEq
  have hE : (parseAll n3).exprF .lowest (startSt (tokE e)) =
      some (.ok (e, stAfter (lastTok e) [])) := by
    rw [hEq]
    exact loopF_stop m' .lowest e _ (Or.inr rfl)
  have hES : (parseAll (n3 + 1)).exprStmtF (startSt (tokE e)) =
      some (.ok (.expression e, stAfter (lastTok e) [])) := by
    show ((match (parseAll n3).exprF .lowest (startSt (tokE e)) with
      | none => none
      | some (.error e) => some (.error e)
      | some (.ok (e, st1)) =>
        some (.ok (.expression e,
          if st1.peek = Token.SemiColon then st1.advance else st1))) : ParseRes Statement) = _
    rw [hE]
    rfl
  obtain ⟨hne, hstart⟩ := tokE_start (sizeE e) e le_rfl hp
  have hST : (parseAll (n3 + 2)).stmtF (startSt (tokE e)) =
      some (.ok (.expression e, stAfter (lastTok e) [])) := by
    have hbody : (parseAll (n3 + 2)).stmtF (startSt (tokE e)) =
        (match (startSt (tokE e)).cur with
          | .Let => (parseAll (n3 + 1)).letF (startSt (tokE e))
          | .Return => (parseAll (n3 + 1)).returnF (startSt (tokE e))
          | _ => (parseAll (n3 + 1)).exprStmtF (startSt (tokE e))) := rfl
    rw [hbody]
    rcases exprStart_shape _ hstart with ⟨nm, hsh⟩ | ⟨nv, hsh⟩ | hsh | hsh | hsh <;>
      rw [show (startSt (tokE e)).cur = (tokE e).headD .EOF from rfl, hsh] <;>
      exact hES
  have hcurne : ¬((startSt (tokE e)).cur = Token.EOF) := by
    show ¬((tokE e).headD .EOF = Token.EOF)
    rcases exprStart_shape _ hstart with ⟨nm, hsh⟩ | ⟨nv, hsh⟩ | hsh | hsh | hsh <;>
      rw [hsh] <;> simp
  have hPF : (parseAll (n3 + 3)).progF [] (startSt (tokE e)) =
      some (.ok ([.expression e], stAfter .EOF [])) := by
    have hbody2 : (parseAll (n3 + 3)).progF [] (startSt (tokE e)) =
        (if (startSt (tokE e)).cur = Token.EOF then
          some (.ok ([], startSt (tokE e)))
        else
          match (parseAll (n3 + 2)).stmtF (startSt (tokE e)) with
          | none => none
          | some (.error e) => some (.error e)
          | some (.ok (s, st1)) =>
            (parseAll (n3 + 2)).progF ([] ++ [s]) st1.advance) := rfl
    rw [hbody2, if_neg hcurne, hST]
    rfl
  unfold parseProgram
  rw [stFor_eq_startSt, hPF]

/-! ## Claim theorems -/

/-- C1.  Return propagation respects function boundaries: a statement of a
block that evaluates to the `Return` sentinel makes the whole block
evaluate to the sentinel itself, unwrapped by top-level program
evaluation (`Evaluator::evaluate`) and by `apply_function`; consequently
the doubly nested `return` program evaluates to `Integer(10)`. -/
theorem c1_return_propagation :
    (∀ n σ i s rest v σ',
      evalStatement n σ i s = .ok (.returnV v) σ' →
      evalBlockStmts (n + 1) σ i (s :: rest) = .ok (.returnV v) σ') ∧
    (∀ n σ i s rest v σ',
      evalStatement n σ i s = .ok (.returnV v) σ' →
      evaluateProgram (n + 1) σ i (s :: rest) = .ok v σ') ∧
    (∀ n σ ps body env args v σ2,
      ps.length = args.length →
      evalStatement n (σ ++ [bindParams ps args env]) σ.length body =
        .ok (.returnV v) σ2 →
      applyFunction (n + 1) σ (.function ps body env) args = .ok v σ2) ∧
    runProgram 30 (strBytes "if (10 > 1) \x7b if (10 > 1) \x7b return 10; \x7d return 1; \x7d") =
      .ok (.integer 10) := by
  refine ⟨?_, ?_, ?_, by rfl⟩
  · intro n σ i s rest v σ' h
    rw [evalBlockStmts_succ_cons, h]
  · intro n σ i s rest v σ' h
    rw [evaluateProgram_succ_cons, h]
  · intro n σ ps body env args v σ2 hlen h
    rw [applyFunction_succ, if_neg (by simp [hlen]), h]

/-- Witness for C1 at concrete inputs: a block whose head statement is
`return 10;` yields the unchanged sentinel, the program evaluation
unwraps it, and `apply_function` unwraps the sentinel of a
`fn(){ return 10; }` body. -/
theorem c1_witness :
    evalBlockStmts 3 initialStore 0 [.returnS (.integer 10), .expression (.integer 1)] =
      .ok (.returnV (.integer 10)) initialStore ∧
    evaluateProgram 3 initialStore 0 [.returnS (.integer 10), .expression (.integer 1)] =
      .ok (.integer 10) initialStore ∧
    applyFunction 3 initialStore
        (.function [] (.returnS (.integer 10)) (.mk [] (some 0))) [] =
      .ok (.integer 10) (initialStore ++ [.mk [] (some 0)]) := by
  refine ⟨c1_return_propagation.1 2 initialStore 0 _ _ _ _ (by rfl),
    c1_return_propagation.2.1 2 initialStore 0 _ _ _ _ (by rfl),
    c1_return_propagation.2.2.1 2 initialStore [] _ _ [] _ _ (by rfl) (by rfl)⟩

/-- C2 counterexample.  The claim says the left operand of an infix
expression is evaluated first, so that `(true + true) + noSuchName`
yields the `UnknownOperator` error of the left operand; the code
evaluates the right operand first (mod.rs:86-87), so the program yields
`IdentifierNotFound` instead. -/
theorem c2_counterexample :
    runProgram 30 (strBytes "(true + true) + noSuchName") = .err .identifierNotFound ∧
    runProgram 30 (strBytes "(true + true) + noSuchName") ≠
      .err (.unknownOperator .plus .bool .bool) := by
  constructor
  · rfl
  · intro h
    rw [show runProgram 30 (strBytes "(true + true) + noSuchName") =
      .err .identifierNotFound from rfl] at h
    simp at h

/-- C2, amended.  `Infix{op, left, right}` evaluates the *right* operand
first, then the left: a failing right operand short-circuits the whole
infix expression with its error, and the left operand is evaluated in
the store produced by the right operand. -/
theorem c2_right_operand_first :
    (∀ n σ i op l r e σ',
      evalExpression n σ i r = .err e σ' →
      evalExpression (n + 1) σ i (.infixE op l r) = .err e σ') ∧
    (∀ n σ i op l r rv σ1 e σ2,
      evalExpression n σ i r = .ok rv σ1 →
      evalExpression n σ1 i l = .err e σ2 →
      evalExpression (n + 1) σ i (.infixE op l r) = .err e σ2) := by
  constructor
  · intro n σ i op l r e σ' h
    rw [evalExpression_succ_infixE, h]
  · intro n σ i op l r rv σ1 e σ2 h1 h2
    simp only [evalExpression_succ_infixE, h1, h2]

/-- Witness for C2's amended theorem: with an unbound right operand the
infix expression yields `IdentifierNotFound` no matter the left operand;
with a well-typed right operand and an unbound left operand the left
error surfaces. -/
theorem c2_witness :
    evalExpression 2 initialStore 0
        (.infixE .plus (.boolean true) (.identifier (strBytes "noSuchName"))) =
      .err .identifierNotFound initialStore ∧
    evalExpression 2 initialStore 0
        (.infixE .plus (.identifier (strBytes "noSuchName")) (.integer 1)) =
      .err .identifierNotFound initialStore := by
  exact ⟨c2_right_operand_first.1 1 initialStore 0 .plus _ _ _ _ (by rfl),
    c2_right_operand_first.2 1 initialStore 0 .plus _ _ _ _ _ _ (by rfl) (by rfl)⟩

/-- C3.  The claim (and spec sections 4.3/9) requires
`IncorrectNumberOfArguments{expected = parameters.len(), actual =
arguments.len()}`; the code (mod.rs:146-151) swaps them.  Calling a
one-parameter function with two arguments reports `expected = 2,
actual = 1`. -/
theorem c3_arity_fields_swapped :
    runProgram 30 (strBytes "let f = fn(x) \x7b x \x7d; f(1, 2);") =
      .err (.incorrectNumberOfArguments 2 1) := by rfl

/-- C4.  The claim says the lexer is total and returns `Illegal` on i64
overflow; the code's `read_int` calls `parse::<i64>().unwrap()`
(lexer/mod.rs:45-52) and panics on `9223372036854775808` (`i64::MAX + 1`);
`none` models the panic. -/
theorem c4_lexer_overflow_panics :
    nextToken (Lexer.new (strBytes "9223372036854775808")) = none := by rfl

/-- C5.  Closures capture the defining scope by reference: the `Function`
arm stores the *index* of the defining cell (a fresh enclosed
environment whose `outer` is the current cell), so calls observe `let`s
executed in the defining scope after capture; the `newAdder` program
yields `Integer(5)`, and a name bound only after the function literal
was evaluated is still found inside a later call. -/
theorem c5_capture_by_reference :
    (∀ n σ i ps body,
      evalExpression (n + 1) σ i (.function ps body) =
        .ok (.function ps body (.mk [] (some i))) σ) ∧
    runProgram 30
        (strBytes "let newAdder = fn(x)\x7bfn(y)\x7bx+y\x7d\x7d; let addTwo = newAdder(2); addTwo(3);") =
      .ok (.integer 5) ∧
    runProgram 30 (strBytes "let f = fn() \x7b a \x7d; let a = 7; f();") =
      .ok (.integer 7) := by
  exact ⟨fun n σ i ps body => rfl, by rfl, by rfl⟩

/-- C6.  On every non-`(Integer, Integer)` operand pair,
`eval_infix_expression` computes exactly the claim's table
(`infixClaimTable`): Bool equality operators, `UnknownOperator` for other
Bool/Bool operators, `TypeMismatch` in operand order for mixed
Integer/Bool, and `Null` for every other mixture. -/
theorem c6_infix_error_table (op : InfixOp) (l r : Object)
    (h : (l.isIntB && r.isIntB) = false) :
    evalInfixExpression op l r = infixClaimTable op l r := by
  cases l <;> cases r <;>
    first
    | (cases op <;> rfl)
    | simp [Object.isIntB] at h

/-- Witness for C6: `true + false` is not an integer pair and produces
`UnknownOperator{Plus, Bool, Bool}` on both sides of the equation. -/
theorem c6_witness :
    ((Object.bool true).isIntB && (Object.bool false).isIntB) = false ∧
    evalInfixExpression .plus (.bool true) (.bool false) =
      infixClaimTable .plus (.bool true) (.bool false) := by
  exact ⟨rfl, c6_infix_error_table .plus (.bool true) (.bool false) rfl⟩

/-- C8.  The claim says every input's token stream reaches `EOF` after
finitely many calls; on `9223372036854775808` the very first
`next_token` call panics inside `read_int`'s `unwrap`, so no call in the
trace ever returns a token, let alone `EOF`. -/
theorem c8_no_eof_on_overflow_input (k : Nat) :
    nthToken (Lexer.new (strBytes "9223372036854775808")) k = none := by
  cases k <;> rfl

/-- C9.  Truthiness is `false` exactly on `Null` and `Bool(false)` and
`true` on every other value, and `If` evaluates the consequence when the
condition is truthy, the alternative when present otherwise, and `Null`
when neither; `if (1) { 10 }` gives `Integer(10)` and `if (false) { 10 }`
gives `Null`. -/
theorem c9_truthiness_and_if :
    (Object.isTruthy .null = false) ∧
    (∀ b, Object.isTruthy (.bool b) = b) ∧
    (∀ n, Object.isTruthy (.integer n) = true) ∧
    (∀ s, Object.isTruthy (.string s) = true) ∧
    (∀ o, Object.isTruthy (.returnV o) = true) ∧
    (∀ ps body env, Object.isTruthy (.function ps body env) = true) ∧
    (∀ n σ i c cons alt cv σ1,
      evalExpression n σ i c = .ok cv σ1 → cv.isTruthy = true →
      evalExpression (n + 1) σ i (.ifE c cons alt) = evalStatement n σ1 i cons) ∧
    (∀ n σ i c cons a cv σ1,
      evalExpression n σ i c = .ok cv σ1 → cv.isTruthy = false →
      evalExpression (n + 1) σ i (.ifE c cons (some a)) = evalStatement n σ1 i a) ∧
    (∀ n σ i c cons cv σ1,
      evalExpression n σ i c = .ok cv σ1 → cv.isTruthy = false →
      evalExpression (n + 1) σ i (.ifE c cons none) = .ok .null σ1) ∧
    runProgram 30 (strBytes "if (1) \x7b 10 \x7d") = .ok (.integer 10) ∧
    runProgram 30 (strBytes "if (false) \x7b 10 \x7d") = .ok .null := by
  refine ⟨rfl, fun b => rfl, fun n => rfl, fun s => rfl, fun o => rfl,
    fun ps body env => rfl, ?_, ?_, ?_, by rfl, by rfl⟩
  · intro n σ i c cons alt cv σ1 h ht
    rw [evalExpression_succ_ifE, h]
    simp [ht]
  · intro n σ i c cons a cv σ1 h ht
    rw [evalExpression_succ_ifE, h]
    simp [ht]
  · intro n σ i c cons cv σ1 h ht
    rw [evalExpression_succ_ifE, h]
    simp [ht]

/-- C10.  Function application never mutates a pre-existing environment
cell: parameters and the body's `let`s are written only to the freshly
pushed per-call cell (a copy of the captured environment), so after a
call returns, every cell that existed before the call — the whole caller
chain and everything the function value's stored environment refers to —
is unchanged, and the store has only grown. -/
theorem c10_apply_no_mutation (n : Nat) (σ : Store) (f : Object)
    (args : List Object) (v : Object) (σ' : Store)
    (h : applyFunction n σ f args = .ok v σ') :
    σ.length ≤ σ'.length ∧ ∀ j, j < σ.length → σ'.get? j = σ.get? j :=
  (evalFrame n).2.2.2.2.1 σ f args v σ' h

/-- Witness for C10: applying `fn(x){ x }` to `3` grows the store by the
per-call cell and leaves the pre-existing root cell untouched. -/
theorem c10_witness :
    ([Environment.mk [] none,
      Environment.mk [(strBytes "x", Object.integer 3)] (some 0)] : Store).get? 0 =
      initialStore.get? 0 ∧
    initialStore.length ≤
      ([Environment.mk [] none,
        Environment.mk [(strBytes "x", Object.integer 3)] (some 0)] : Store).length := by
  have h := c10_apply_no_mutation 5 initialStore
    (.function [.identifier (strBytes "x")]
      (.block [.expression (.identifier (strBytes "x"))]) (.mk [] (some 0)))
    [.integer 3] (.integer 3)
    [Environment.mk [] none, Environment.mk [(strBytes "x", Object.integer 3)] (some 0)]
    (by rfl)
  exact ⟨h.2 0 (by decide), h.1⟩

/-- C7 counterexample.  The round-trip claim fails for expressions whose
display goes through `Statement`'s `Display` (which formats with `{:?}`)
and for string literals (displayed without quotes): `fn(x){x}` parses,
but its display `fn(x){Identifier("x");}` re-parses to a body containing
a *call* `Identifier("x")`; and `"hello world"` parses to a string
literal whose display `hello world` re-parses as two identifier
statements. -/
theorem c7_counterexample :
    parseSrc 30 (strBytes "fn(x)\x7bx\x7d") =
      some (.ok [.expression (.function [.identifier (strBytes "x")]
        (.block [.expression (.identifier (strBytes "x"))]))]) ∧
    parseSrc 30 (displayExpr (.function [.identifier (strBytes "x")]
        (.block [.expression (.identifier (strBytes "x"))]))) =
      some (.ok [.expression (.function [.identifier (strBytes "x")]
        (.block [.expression (.call (.identifier (strBytes "Identifier"))
          [.string (strBytes "x")])]))]) ∧
    ¬ (parseSrc 30 (displayExpr (.function [.identifier (strBytes "x")]
        (.block [.expression (.identifier (strBytes "x"))]))) =
      some (.ok [.expression (.function [.identifier (strBytes "x")]
        (.block [.expression (.identifier (strBytes "x"))]))])) ∧
    parseSrc 30 (strBytes "\"hello world\"") =
      some (.ok [.expression (.string (strBytes "hello world"))]) ∧
    parseSrc 30 (displayExpr (.string (strBytes "hello world"))) =
      some (.ok [.expression (.identifier (strBytes "hello")),
                 .expression (.identifier (strBytes "world"))]) ∧
    ¬ (parseSrc 30 (displayExpr (.string (strBytes "hello world"))) =
      some (.ok [.expression (.string (strBytes "hello world"))])) := by
  refine ⟨by rfl, by rfl, ?_, by rfl, by rfl, ?_⟩
  · intro hcontra
    rw [show parseSrc 30 (displayExpr (.function [.identifier (strBytes "x")]
        (.block [.expression (.identifier (strBytes "x"))]))) =
      some (.ok [.expression (.function [.identifier (strBytes "x")]
        (.block [.expression (.call (.identifier (strBytes "Identifier"))
          [.string (strBytes "x")])]))]) from rfl] at hcontra
    simp at hcontra
  · intro hcontra
    rw [show parseSrc 30 (displayExpr (.string (strBytes "hello world"))) =
      some (.ok [.expression (.identifier (strBytes "hello")),
                 .expression (.identifier (strBytes "world"))]) from rfl] at hcontra
    simp at hcontra

/-- C7 (amended round trip).  On the fragment the printer renders
faithfully — expressions built from identifiers, in-range non-negative
integer literals, booleans, the two prefix operators, the eight infix
operators, and calls — display really is a fully parenthesized rendering
that re-parses to exactly the original AST: for every such expression
`e` and any parser fuel of at least `pfE e + 8`, lexing and parsing
`display(e)` yields the one-statement program `[Expression e]`. -/
theorem c7_round_trip (e : Expression) (hp : printableE e = true)
    (n : Nat) (hn : pfE e + 8 ≤ n) :
    parseSrc n (displayExpr e) = some (.ok [.expression e]) := by
  unfold parseSrc
  rw [lexAll_display e hp]
  exact parseProgram_display e hp n hn

/-- Witness for C7's amended round trip at `(a+5)` with fuel `40`. -/
theorem c7_round_trip_witness :
    printableE (.infixE .plus (.identifier (strBytes "a")) (.integer 5)) = true ∧
    pfE (.infixE .plus (.identifier (strBytes "a")) (.integer 5)) + 8 ≤ 40 ∧
    parseSrc 40
        (displayExpr (.infixE .plus (.identifier (strBytes "a")) (.integer 5))) =
      some (.ok [.expression
        (.infixE .plus (.identifier (strBytes "a")) (.integer 5))]) :=
  ⟨by decide, by decide, c7_round_trip _ (by decide) 40 (by decide)⟩

/-- Witness for C9's conditional clauses at concrete inputs: `1` is
truthy so the consequence runs, `false` picks the alternative when
present and `Null` when absent. -/
theorem c9_witness :
    evalExpression 2 initialStore 0
        (.ifE (.integer 1) (.expression (.integer 10)) none) =
      evalStatement 1 initialStore 0 (.expression (.integer 10)) ∧
    evalExpression 2 initialStore 0
        (.ifE (.boolean false) (.expression (.integer 10))
          (some (.expression (.integer 20)))) =
      evalStatement 1 initialStore 0 (.expression (.integer 20)) ∧
    evalExpression 2 initialStore 0
        (.ifE (.boolean false) (.expression (.integer 10)) none) =
      .ok .null initialStore := by
  exact ⟨c9_truthiness_and_if.2.2.2.2.2.2.1 1 initialStore 0 _ _ _ _ _ (by rfl) (by rfl),
    c9_truthiness_and_if.2.2.2.2.2.2.2.1 1 initialStore 0 _ _ _ _ _ (by rfl) (by rfl),
    c9_truthiness_and_if.2.2.2.2.2.2.2.2.1 1 initialStore 0 _ _ _ _ (by rfl) (by rfl)⟩

end Monkey
